import Mathlib

/-!
Verification of the dataset indexing and sampling core of AirLoop
(`src/datasets/base.py`): the `DatasetBase` catalog operations
(`get_env_seqs`, `__getitem__`, `include_exclude`, `rand_split`) and the
`DefaultSampler` batch construction, shallowly embedded as executable
Lean functions.
-/

namespace AirLoop

abbrev EnvId := String
abbrev SeqId := String

/-- The catalog `self._seqs`: an insertion-ordered mapping from environment id
to its list of sequence ids (a Python `dict` modelled as an association list
with distinct keys). -/
abbrev Catalog := List (EnvId × List SeqId)

/-- An `(environment, sequence)` pair. -/
abbrev EnvSeq := EnvId × SeqId

/-- An `(environment, sequence, frame index)` triple, the element of a batch. -/
abbrev Triple := EnvId × SeqId × Nat

/-- `DatasetBase.get_env_seqs`: the flattened ordered list of
`(environment, sequence)` pairs, environments in mapping order, sequences in
stored list order. -/
def get_env_seqs (c : Catalog) : List EnvSeq :=
  c.flatMap fun p => p.2.map fun s => (p.1, s)

/-- `DatasetBase.get_seq_id` on scalar arguments: the derived `SeqKey`,
`env + "_" + seq` (underscore-join of the one-element lists). -/
def get_seq_id (e : EnvId) (s : SeqId) : String :=
  e ++ "_" ++ s

/-- `DatasetBase.envs`: the catalog's keys. -/
def envs (c : Catalog) : List EnvId :=
  c.map Prod.fst

/-- Python `self.seqs[env]`: the sequence list stored under an environment key
(first matching entry; `[]` when absent, a case the source never reaches
because it checks membership first). -/
def seqsOf (c : Catalog) (e : EnvId) : List SeqId :=
  ((c.find? fun p => p.1 = e).map Prod.snd).getD []

/-! ## `__getitem__` -/

/-- The three distinct assertion failures of `DatasetBase.__getitem__`. -/
inductive GetItemError
  | noSuchEnv
  | noSuchSeq
  | indexOutOfBound
deriving DecidableEq

/-- An element of the tuple returned by `__getitem__`: either a payload value
from the item-fetch hook, or the trailing `(env, seq, idx)` metadata triple. -/
inductive ItemElem (α : Type) : Type
  | val : α → ItemElem α
  | meta : Triple → ItemElem α
deriving DecidableEq

/-- The result of `getitem_impl`, which may be a bare value or a tuple. -/
inductive FetchResult (α : Type) : Type
  | single : α → FetchResult α
  | tuple : List α → FetchResult α

/-- `DatasetBase.__getitem__`: assert the environment is known, the sequence
is listed under it, and `0 <= idx < get_size(env, seq)`; then fetch the item,
wrap a non-tuple result into a one-element tuple, and append the
`(env, seq, idx)` triple. The index is a Python `int`, modelled as `Int`;
on success it is the non-negative `idx.toNat`. -/
def getitem {α : Type} (c : Catalog) (size : EnvId → SeqId → Nat)
    (fetch : EnvId → SeqId → Nat → FetchResult α) (e : EnvId) (s : SeqId)
    (idx : Int) : Except GetItemError (List (ItemElem α)) :=
  if e ∈ envs c then
    if s ∈ seqsOf c e then
      if 0 ≤ idx ∧ idx < (size e s : Int) then
        let item := match fetch e s idx.toNat with
          | .single v => [v]
          | .tuple vs => vs
        .ok (item.map .val ++ [.meta (e, s, idx.toNat)])
      else .error .indexOutOfBound
    else .error .noSuchSeq
  else .error .noSuchEnv

/-! ## `include_exclude` -/

/-- Python `list.remove`: drop the first occurrence (total: a no-op when the
element is absent, a case the `include_exclude` loop never reaches). -/
def removeFirst (s : SeqId) : List SeqId → List SeqId
  | [] => []
  | x :: xs => if x = s then xs else x :: removeFirst s xs

/-- `self.seqs[env].remove(seq)` followed by
`if not self.seqs[env]: self.seqs.pop(env)`: remove `seq` from the entry of
`env`, dropping the entry when its list becomes empty (a no-op on a missing
environment, a case the source loop never reaches). -/
def catalogRemoveSeq : Catalog → EnvId → SeqId → Catalog
  | [], _, _ => []
  | (e', ss) :: rest, e, s =>
    if e' = e then
      let ss' := removeFirst s ss
      if ss' = [] then rest else (e', ss') :: rest
    else
      (e', ss) :: catalogRemoveSeq rest e s

/-- The removal test of `include_exclude`:
`(incl_pattern and incl_pattern.search(seq_id) is None) or
(excl_pattern and excl_pattern.search(seq_id) is not None)`.
A compiled regular expression is abstracted as the predicate
"`pattern.search(key)` finds a match". -/
def shouldRemove (inc exc : Option (String → Bool)) (key : String) : Bool :=
  (match inc with | some p => !p key | none => false) ||
  (match exc with | some p => p key | none => false)

/-- `DatasetBase.include_exclude`: iterate over a snapshot of the
`(environment, sequence)` pairs taken before the loop, removing from the live
catalog each pair whose `SeqKey` fails the include/exclude test. -/
def include_exclude (inc exc : Option (String → Bool)) (c : Catalog) : Catalog :=
  (get_env_seqs c).foldl
    (fun acc p =>
      if shouldRemove inc exc (get_seq_id p.1 p.2) then catalogRemoveSeq acc p.1 p.2
      else acc) c

/-- The effect of `include_exclude` in one pass: filter every environment's
sequence list by the keep test and drop environments whose lists empty out. -/
def filterCatalog (inc exc : Option (String → Bool)) (c : Catalog) : Catalog :=
  c.filterMap fun p =>
    let ss' := p.2.filter fun s => !shouldRemove inc exc (get_seq_id p.1 s)
    if ss' = [] then none else some (p.1, ss')

/-- The evolution of one environment's sequence list under the removal loop,
ignoring the catalog structure. -/
def processList (rem : SeqId → Bool) (snap cur : List SeqId) : List SeqId :=
  snap.foldl (fun c s => if rem s then removeFirst s c else c) cur

/-! ## `rand_split` -/

/-- `np.round` on an exact rational: round half to even (the IEEE rounding
numpy applies; the float64 arithmetic of the source is modelled as exact
rational arithmetic). -/
def npRound (x : ℚ) : ℤ :=
  if x - ⌊x⌋ < 1/2 then ⌊x⌋
  else if 1/2 < x - ⌊x⌋ then ⌊x⌋ + 1
  else if ⌊x⌋ % 2 = 0 then ⌊x⌋ else ⌊x⌋ + 1

/-- `np.cumsum` with a running accumulator. -/
def cumsumFrom (acc : ℤ) : List ℤ → List ℤ
  | [] => []
  | x :: xs => (acc + x) :: cumsumFrom (acc + x) xs

/-- `np.cumsum` over integers (inclusive partial sums). -/
def cumsum (l : List ℤ) : List ℤ := cumsumFrom 0 l

/-- One step of a 64-bit linear congruential generator: the deterministic
seeded stream standing in for numpy's PCG64 behind
`np.random.default_rng(seed=seed)` (external library randomness; the claims
depend only on it being a pure function of the seed that drives a
permutation). -/
def lcgStep (s : Nat) : Nat :=
  (6364136223846793005 * s + 1442695040888963407) % (2 ^ 64)

/-- Fisher-Yates selection driven by the generator state: repeatedly pick the
`state % length`-th remaining element. -/
def fyShuffle : Nat → List Nat → List Nat
  | _, [] => []
  | st, x :: xs =>
    (x :: xs).getD (st % (x :: xs).length) 0 ::
      fyShuffle (lcgStep st) ((x :: xs).eraseIdx (st % (x :: xs).length))
termination_by _ l => l.length
decreasing_by
  have h : st % (xs.length + 1) < xs.length + 1 := Nat.mod_lt _ (by omega)
  simp [List.length_eraseIdx, h]

/-- `np.random.default_rng(seed=seed).permutation(total)`: a deterministic,
seeded permutation of `0, ..., total - 1`. -/
def npPermutation (seed total : Nat) : List Nat :=
  fyShuffle (lcgStep seed) (List.range total)

/-- Python `sorted` on integers: ascending insertion sort. -/
def insertSorted (x : Nat) : List Nat → List Nat
  | [] => [x]
  | y :: ys => if x ≤ y then x :: y :: ys else y :: insertSorted x ys

/-- Python `sorted` on a list of natural numbers. -/
def sortAsc : List Nat → List Nat
  | [] => []
  | x :: xs => insertSorted x (sortAsc xs)

/-- `np.split(arr, idx)`: the consecutive slices `arr[a:b]` for the boundary
pairs of `0 :: idx` and `idx ++ [len(arr)]`; Python slicing with non-negative
bounds clips to the array. (`rand_split`'s boundaries are non-negative under
the spec's non-negative ratios with positive sum.) -/
def npSplit (l : List α) (idx : List Nat) : List (List α) :=
  (List.zip (0 :: idx) (idx ++ [l.length])).map fun p => (l.take p.2).drop p.1

/-- `subset.seqs.setdefault(env, []).append(seq)`: append to the environment's
list, inserting the environment at the end of the mapping when absent. -/
def addPair : Catalog → EnvId → SeqId → Catalog
  | [], e, s => [(e, [s])]
  | q :: rest, e, s =>
    if q.1 = e then (q.1, q.2 ++ [s]) :: rest else q :: addPair rest e s

/-- The fresh `subset._seqs` built by the inner loop of `rand_split`. -/
def buildCatalog (ps : List EnvSeq) : Catalog :=
  ps.foldl (fun c p => addPair c p.1 p.2) []

/-- `DatasetBase.rand_split`, as the list of the subsets' fresh `_seqs`
mappings: cut a seeded permutation of `0..total-1` at the cumulative rounded
ratio boundaries, sort each slice ascending, and regroup the selected pairs
into a fresh mapping. (The heap-level aliasing behaviour of the
`copy`-then-rebind pattern is modelled separately below.) -/
def rand_split (c : Catalog) (ratios : List ℚ) (seed : Nat) : List Catalog :=
  let env_seqs := get_env_seqs c
  let total : Nat := env_seqs.length
  let split_idx : List Nat :=
    ((cumsum (ratios.map fun r => npRound (r / ratios.sum * total))).dropLast).map
      Int.toNat
  (npSplit (npPermutation seed total) split_idx).map fun perm =>
    buildCatalog ((sortAsc perm).map fun i => env_seqs.getD i ("", ""))

/-! ## Heap model of `rand_split`'s copy-then-rebind pattern

`subset = copy(self); subset._seqs = {}` followed by in-place
`setdefault/append` mutation is about object identity, so this part is
modelled with an explicit store of dict objects addressed by index. -/

/-- A `DatasetBase` instance as Python sees it: the reference held by its
`_seqs` attribute, plus the references held by all its other attributes (the
dataset root and any auxiliary state), which `copy` shares. -/
structure PyHolder where
  seqsRef : Nat
  otherRefs : List Nat

/-- The store of catalog dict objects; an address is an index. -/
structure PyHeap where
  dicts : List Catalog

/-- Dereference (total: a dangling address reads `{}`, never reached under
the validity hypothesis). -/
def PyHeap.get (h : PyHeap) (a : Nat) : Catalog := h.dicts.getD a []

/-- In-place mutation of the dict at an address. -/
def PyHeap.set (h : PyHeap) (a : Nat) (d : Catalog) : PyHeap := ⟨h.dicts.set a d⟩

/-- One iteration of the outer loop of `rand_split`:
`subset = copy(self)` (all attribute references shared), `subset._seqs = {}`
(allocate a fresh empty dict at a fresh address and rebind the copy's
`_seqs`), then the inner loop's `subset.seqs.setdefault(env, []).append(seq)`
calls mutating only the fresh dict; finally `subsets.append(subset)`. -/
def rshStep (env_seqs : List EnvSeq) (self : PyHolder)
    (st : PyHeap × List PyHolder) (pm : List Nat) : PyHeap × List PyHolder :=
  let addr := st.1.dicts.length
  let hp : PyHeap := ⟨st.1.dicts ++ [[]]⟩
  let hp2 := ((sortAsc pm).map fun i => env_seqs.getD i ("", "")).foldl
    (fun hh p => hh.set addr (addPair (hh.get addr) p.1 p.2)) hp
  (hp2, st.2 ++ [{ self with seqsRef := addr }])

/-- `DatasetBase.rand_split` at the object level: the final heap and the list
of subset holders. -/
def rand_split_heap (h₀ : PyHeap) (self : PyHolder) (ratios : List ℚ)
    (seed : Nat) : PyHeap × List PyHolder :=
  let env_seqs := get_env_seqs (h₀.get self.seqsRef)
  let total : Nat := env_seqs.length
  let split_idx : List Nat :=
    ((cumsum (ratios.map fun r => npRound (r / ratios.sum * total))).dropLast).map
      Int.toNat
  (npSplit (npPermutation seed total) split_idx).foldl
    (rshStep env_seqs self) (h₀, [])

/-! ## `DefaultSampler` -/

/-- `np.arange(0, stop, step)` on non-negative integers: the multiples of
`step` below `stop` (numpy computes `ceil(stop / step)` elements). -/
def arange (stop step : Nat) : List Nat :=
  (List.range ((stop + step - 1) / step)).map (· * step)

/-- `frame_idx[st : st + bs]` where `frame_idx = np.arange(0, size)`:
a clipped slice of `0, ..., size - 1`. -/
def sliceRange (size st bs : Nat) : List Nat :=
  ((List.range size).drop st).take bs

/-- The batch list one `(env_seq, size)` entry contributes in the
`DefaultSampler.__init__` loop: one batch per start offset in
`np.arange(0, size - bs, 1 if overlap else bs)`, each batch being the triples
`env_seq + (idx,)` for `idx` in `frame_idx[st : st + bs]`. -/
def seqBatches (p : EnvSeq) (size bs : Nat) (overlap : Bool) : List (List Triple) :=
  (arange (size - bs) (if overlap then 1 else bs)).map fun st =>
    (sliceRange size st bs).map fun idx => (p.1, p.2, idx)

/-- The `shuffle` argument of `DefaultSampler`: one of the four recognized
strings, or anything else (no shuffling). -/
inductive Shuffle
  | none | seq | batch | env | all
deriving DecidableEq

/-- The ambient `np.random.shuffle` calls, abstracted as explicit reordering
functions (the source uses process-level random state; each call site gets its
own oracle). -/
structure Oracles where
  seqShuffle : List (EnvSeq × Nat) → List (EnvSeq × Nat)
  batchShuffle : List (List Triple) → List (List Triple)
  envShuffle : List Triple → List Triple
  allShuffle : List (List (Option Triple)) → List (List (Option Triple))

/-- An oracle set is lawful when every call reorders its input
(which `np.random.shuffle` always does). -/
def Oracles.Lawful (o : Oracles) : Prop :=
  (∀ l, (o.seqShuffle l).Perm l) ∧ (∀ l, (o.batchShuffle l).Perm l) ∧
  (∀ l, (o.envShuffle l).Perm l) ∧ (∀ l, (o.allShuffle l).Perm l)

/-- The identity oracles (no reordering). -/
def idOracles : Oracles := ⟨id, id, id, id⟩

/-- `self.seq_sizes`: each catalog pair with its size, shuffled when
`shuffle == 'seq'`. -/
def seqSizes (c : Catalog) (size : EnvId → SeqId → Nat) (mode : Shuffle)
    (o : Oracles) : List (EnvSeq × Nat) :=
  let l := (get_env_seqs c).map fun p => (p, size p.1 p.2)
  if mode = Shuffle.seq then o.seqShuffle l else l

/-- `self.batches` after the per-sequence loop of `DefaultSampler.__init__`
(before any `'env'`/`'all'` regrouping): each entry's batch list, shuffled
per sequence when `shuffle == 'batch'`, concatenated in entry order. -/
def sequentialBatches (c : Catalog) (size : EnvId → SeqId → Nat) (bs : Nat)
    (mode : Shuffle) (overlap : Bool) (o : Oracles) : List (List Triple) :=
  (seqSizes c size mode o).flatMap fun e =>
    let batch := seqBatches e.1 e.2 bs overlap
    if mode = Shuffle.batch then o.batchShuffle batch else batch

/-- Prepend an element to a run decomposition: extend the first run when the
key matches its head, otherwise open a new run. -/
def splitRunsCons (key : α → String) (x : α) : List (List α) → List (List α)
  | [] => [[x]]
  | [] :: gs => [x] :: gs
  | (y :: g) :: gs => if key x = key y then (x :: y :: g) :: gs else [x] :: (y :: g) :: gs

/-- `itertools.groupby` keyed by `key`: maximal runs of consecutive elements
sharing a key. -/
def splitRuns (key : α → String) : List α → List (List α)
  | [] => []
  | x :: xs => splitRunsCons key x (splitRuns key xs)

/-- Pad a list to length `n` with `none` (the `None` fill value of
`itertools.zip_longest`). -/
def padTo (n : Nat) (l : List α) : List (Option α) :=
  l.map some ++ List.replicate (n - l.length) (none : Option α)

/-- `itertools.zip_longest(*([iter(l)] * n))`: `ceil(len(l)/n)` chunks of `n`
consecutive elements each, the final one padded with `None`; no chunks when
`n = 0` (no iterators to zip) or `l` is empty. -/
def chunkPad (n : Nat) (l : List α) : List (List (Option α)) :=
  (List.range ((l.length + n - 1) / n)).map fun k => padTo n ((l.drop (k * n)).take n)

/-- The `shuffle == 'env' or shuffle == 'all'` regrouping: flatten all batches
into triples, group consecutive triples by environment (`b[0]`), shuffle each
environment's pool, and re-slice each pool into `batch_size` chunks padded
with `None`. -/
def envRegroup (bs : Nat) (o : Oracles) (batches : List (List Triple)) :
    List (List (Option Triple)) :=
  (splitRuns (fun t => t.1) batches.flatten).flatMap fun grp =>
    chunkPad bs (o.envShuffle grp)

/-- `self.batches` at the end of `DefaultSampler.__init__`, as one type:
batches of plain triples are mapped through `some`, and the `None` padding
slots of the `'env'`/`'all'` regrouping are `none`. -/
def samplerBatches (c : Catalog) (size : EnvId → SeqId → Nat) (bs : Nat)
    (mode : Shuffle) (overlap : Bool) (o : Oracles) : List (List (Option Triple)) :=
  let init := sequentialBatches c size bs mode overlap o
  match mode with
  | .env => envRegroup bs o init
  | .all => o.allShuffle (envRegroup bs o init)
  | _ => init.map fun b => b.map some

/-- The spec's scenario catalog `{"envA": ["s1","s2"], "envB": ["s3"]}`. -/
def scenarioCatalog : Catalog := [("envA", ["s1", "s2"]), ("envB", ["s3"])]

/-- The spec's scenario size oracle: `s1 = 5`, `s2 = 3`, `s3 = 10`. -/
def scenarioSize : EnvId → SeqId → Nat := fun _ s =>
  if s = "s1" then 5 else if s = "s2" then 3 else 10

/-- The spec's scenario, computed: the code emits 7 batches, not the 10 the
spec's scenario lists — `np.arange`'s exclusive stop drops the tail of every
sequence. -/
theorem scenario_batches_computed :
    samplerBatches scenarioCatalog scenarioSize 2 Shuffle.none false idOracles =
      [[some ("envA", "s1", 0), some ("envA", "s1", 1)],
       [some ("envA", "s1", 2), some ("envA", "s1", 3)],
       [some ("envA", "s2", 0), some ("envA", "s2", 1)],
       [some ("envB", "s3", 0), some ("envB", "s3", 1)],
       [some ("envB", "s3", 2), some ("envB", "s3", 3)],
       [some ("envB", "s3", 4), some ("envB", "s3", 5)],
       [some ("envB", "s3", 6), some ("envB", "s3", 7)]] := by decide

/-! ## Lemmas about the batch construction -/

theorem arange_one (stop : Nat) : arange stop 1 = List.range stop := by
  unfold arange
  simp

theorem sliceRange_eq {size st bs : Nat} (h : st + bs ≤ size) :
    sliceRange size st bs = (List.range bs).map (st + ·) := by
  unfold sliceRange
  have h1 : size = st + (size - st) := by omega
  rw [h1, List.range_add, List.drop_left' (List.length_range st), ← List.map_take,
    List.take_range, Nat.min_eq_left (by omega)]

theorem flatten_range_blocks (C B : Nat) (f : Nat → α) :
    ((List.range C).map fun k => (List.range B).map fun j => f (k * B + j)).flatten
      = (List.range (C * B)).map f := by
  induction C with
  | zero => simp
  | succ n ih =>
    rw [List.range_succ, List.map_append, List.flatten_append, ih, Nat.succ_mul,
      List.range_add, List.map_append]
    simp

/-- With no shuffling the sampler's stage 1-4 list is the plain concatenation
of every pair's batches in catalog order. -/
theorem sequentialBatches_none (c : Catalog) (size : EnvId → SeqId → Nat)
    (bs : Nat) (overlap : Bool) (o : Oracles) :
    sequentialBatches c size bs Shuffle.none overlap o =
      (get_env_seqs c).flatMap fun p => seqBatches p (size p.1 p.2) bs overlap := by
  unfold sequentialBatches seqSizes
  rw [if_neg (by decide), List.flatMap_map]
  simp only [show (Shuffle.none = Shuffle.batch) = False from eq_false (by decide),
    if_false]

theorem sequentialBatches_none_single (e : EnvId) (s : SeqId)
    (size : EnvId → SeqId → Nat) (bs : Nat) (overlap : Bool) (o : Oracles) :
    sequentialBatches [(e, [s])] size bs Shuffle.none overlap o =
      seqBatches (e, s) (size e s) bs overlap := by
  rw [sequentialBatches_none]
  show seqBatches (e, s) (size e s) bs overlap ++ [] = _
  rw [List.append_nil]

/-- One pair's batch list, `overlap=False`: one full batch of `B` consecutive
indices at each start offset `0, B, 2B, ...` strictly below `S - B`. -/
theorem seqBatches_noOverlap_eq (e : EnvId) (s : SeqId) (S B : Nat) (hB : 0 < B) :
    seqBatches (e, s) S B false =
      (List.range ((S - B + B - 1) / B)).map fun k =>
        (List.range B).map fun j => (e, s, k * B + j) := by
  unfold seqBatches arange
  simp only [show ((false : Bool) = true) = False from eq_false (by decide), if_false]
  rw [List.map_map]
  refine List.map_congr_left fun k hk => ?_
  rw [List.mem_range] at hk
  have hkB : k * B + B ≤ S := by
    rcases Nat.lt_or_ge B S with h | h
    · have h1 : S - B + B - 1 = S - 1 := by omega
      rw [h1] at hk
      have h2 : (k + 1) * B ≤ ((S - 1) / B) * B := Nat.mul_le_mul_right _ (by omega)
      have h3 : ((S - 1) / B) * B ≤ S - 1 := Nat.div_mul_le_self _ _
      have h4 : (k + 1) * B = k * B + B := by ring
      omega
    · have h1 : S - B = 0 := by omega
      rw [h1] at hk
      have h2 : (0 + B - 1) / B = 0 := Nat.div_eq_of_lt (by omega)
      omega
  show (sliceRange S (k * B) B).map (fun idx => (e, s, idx)) = _
  rw [sliceRange_eq hkB, List.map_map]
  rfl

/-- One pair's batch list, `overlap=True`: one full window of `B` consecutive
indices at each start offset `0, 1, ...` strictly below `S - B`. -/
theorem seqBatches_overlap_eq (e : EnvId) (s : SeqId) (S B : Nat) :
    seqBatches (e, s) S B true =
      (List.range (S - B)).map fun st =>
        (List.range B).map fun j => (e, s, st + j) := by
  unfold seqBatches
  rw [if_pos rfl, arange_one]
  refine List.map_congr_left fun st hst => ?_
  rw [List.mem_range] at hst
  have hkB : st + B ≤ S := by omega
  show (sliceRange S st B).map (fun idx => (e, s, idx)) = _
  rw [sliceRange_eq hkB, List.map_map]
  rfl

/-- The single-pair sampler, `overlap=False`, no shuffling. -/
theorem samplerBatches_noOverlap_single (e : EnvId) (s : SeqId) (S B : Nat)
    (hB : 0 < B) :
    samplerBatches [(e, [s])] (fun _ _ => S) B Shuffle.none false idOracles =
      (List.range ((S - B + B - 1) / B)).map fun k =>
        (List.range B).map fun j => some (e, s, k * B + j) := by
  show (sequentialBatches [(e, [s])] (fun _ _ => S) B Shuffle.none false idOracles).map
      (fun b => b.map some) = _
  rw [sequentialBatches_none_single, seqBatches_noOverlap_eq e s S B hB, List.map_map]
  refine List.map_congr_left fun k _ => ?_
  show ((List.range B).map fun j => (e, s, k * B + j)).map some = _
  rw [List.map_map]
  rfl

/-- The single-pair sampler, `overlap=True`, no shuffling. -/
theorem samplerBatches_overlap_single (e : EnvId) (s : SeqId) (S B : Nat) :
    samplerBatches [(e, [s])] (fun _ _ => S) B Shuffle.none true idOracles =
      (List.range (S - B)).map fun st =>
        (List.range B).map fun j => some (e, s, st + j) := by
  show (sequentialBatches [(e, [s])] (fun _ _ => S) B Shuffle.none true idOracles).map
      (fun b => b.map some) = _
  rw [sequentialBatches_none_single, seqBatches_overlap_eq, List.map_map]
  refine List.map_congr_left fun st _ => ?_
  show ((List.range B).map fun j => (e, s, st + j)).map some = _
  rw [List.map_map]
  rfl

/-! ## Claims C1, C2, C5 -/

/-- C1, counterexample: on the spec's scenario catalog
(`s1 = 5`, `s2 = 3`, `s3 = 10`, `batch_size = 2`, `overlap=False`, no
shuffling), `DefaultSampler` emits 7 batches, not the 10 the claim lists, and
frame 4 of `("envA", "s1")` (the short final batch the claim expects) never
appears in any batch. -/
theorem claim1_counterexample :
    (samplerBatches scenarioCatalog scenarioSize 2 Shuffle.none false idOracles).length
        ≠ 10 ∧
    (samplerBatches scenarioCatalog scenarioSize 2 Shuffle.none false idOracles).length
        = 7 ∧
    some ("envA", "s1", 4) ∉
      (samplerBatches scenarioCatalog scenarioSize 2 Shuffle.none false idOracles).flatten :=
  ⟨by decide, by decide, by decide⟩

/-- C1 (amended): with `overlap=False` and no shuffling, a pair of size `S`
yields `⌈(S−B)/B⌉` batches, each of exactly `B` consecutive indices (never a
short one), whose union covers `{0, ..., ⌈(S−B)/B⌉·B − 1}` exactly once each;
the trailing indices — at least frame `S−1` whenever `S > B` — are dropped,
and the spec's scenario therefore yields 7 batches instead of 10. -/
theorem claim1_noOverlap_tiling (e : EnvId) (s : SeqId) (S B : Nat) (hB : 0 < B) :
    samplerBatches [(e, [s])] (fun _ _ => S) B Shuffle.none false idOracles =
      ((List.range ((S - B + B - 1) / B)).map fun k =>
        (List.range B).map fun j => some (e, s, k * B + j)) ∧
    (samplerBatches [(e, [s])] (fun _ _ => S) B Shuffle.none false idOracles).flatten =
      (List.range (((S - B + B - 1) / B) * B)).map (fun i => some (e, s, i)) ∧
    (samplerBatches scenarioCatalog scenarioSize 2 Shuffle.none false idOracles).length
        = 7 := by
  refine ⟨samplerBatches_noOverlap_single e s S B hB, ?_, by decide⟩
  rw [samplerBatches_noOverlap_single e s S B hB]
  exact flatten_range_blocks ((S - B + B - 1) / B) B (fun i => some (e, s, i))

theorem claim1_noOverlap_tiling_witness :
    0 < 2 ∧
    (samplerBatches [("a", ["b"])] (fun _ _ => 5) 2 Shuffle.none false idOracles).flatten =
      (List.range 4).map (fun i => some ("a", "b", i)) :=
  ⟨by decide, (claim1_noOverlap_tiling "a" "b" 5 2 (by decide)).2.1⟩

/-- C2, counterexample: a pair of size 1 with `batch_size = 2` under
`overlap=False` yields zero batches, not the single short batch `[0]` the
claim asserts. -/
theorem claim2_counterexample :
    samplerBatches [("e", ["s"])] (fun _ _ => 1) 2 Shuffle.none false idOracles = [] ∧
    (samplerBatches [("e", ["s"])] (fun _ _ => 1) 2 Shuffle.none false idOracles).length
        ≠ 1 :=
  ⟨by decide, by decide⟩

/-- C2 (amended): a pair whose size is strictly smaller than the batch size
yields zero batches under `overlap=False`: the start-offset range
`np.arange(0, size - batch_size, batch_size)` is empty, so the pair
contributes nothing and a single-pair sampler emits no batch at all. -/
theorem claim2_small_pair_empty (e : EnvId) (s : SeqId) (S B : Nat) (h : S < B) :
    seqBatches (e, s) S B false = [] ∧
    samplerBatches [(e, [s])] (fun _ _ => S) B Shuffle.none false idOracles = [] := by
  have hb : seqBatches (e, s) S B false = [] := by
    rw [seqBatches_noOverlap_eq e s S B (by omega)]
    have h1 : S - B = 0 := by omega
    rw [h1]
    have h2 : (0 + B - 1) / B = 0 := Nat.div_eq_of_lt (by omega)
    rw [h2]
    rfl
  refine ⟨hb, ?_⟩
  show (sequentialBatches [(e, [s])] (fun _ _ => S) B Shuffle.none false idOracles).map
      (fun b => b.map some) = _
  rw [sequentialBatches_none_single]
  rw [hb]
  rfl

theorem claim2_small_pair_empty_witness :
    1 < 2 ∧
    (seqBatches ("e", "s") 1 2 false = [] ∧
      samplerBatches [("e", ["s"])] (fun _ _ => 1) 2 Shuffle.none false idOracles = []) :=
  ⟨by decide, claim2_small_pair_empty "e" "s" 1 2 (by decide)⟩

/-- C5: with `overlap=True` and no shuffling, a pair of size `S` yields one
batch per start offset `0 .. S−B−1` (so `S − B` batches in total, zero when
`S ≤ B`), and the batch at offset `st` consists of exactly the `B` triples for
the consecutive indices `st, st+1, ..., st+B−1`. -/
theorem claim5_overlap_windows (e : EnvId) (s : SeqId) (S B : Nat) :
    samplerBatches [(e, [s])] (fun _ _ => S) B Shuffle.none true idOracles =
      ((List.range (S - B)).map fun st =>
        (List.range B).map fun j => some (e, s, st + j)) ∧
    (samplerBatches [(e, [s])] (fun _ _ => S) B Shuffle.none true idOracles).length
        = S - B ∧
    ∀ b ∈ samplerBatches [(e, [s])] (fun _ _ => S) B Shuffle.none true idOracles,
      b.length = B := by
  refine ⟨samplerBatches_overlap_single e s S B, ?_, ?_⟩
  · rw [samplerBatches_overlap_single e s S B]
    simp
  · intro b hb
    rw [samplerBatches_overlap_single e s S B] at hb
    rcases List.mem_map.mp hb with ⟨st, _, rfl⟩
    simp

/-! ## Lemmas about `include_exclude` -/

theorem processList_nil_cur (rem : SeqId → Bool) (snap : List SeqId) :
    processList rem snap [] = [] := by
  induction snap with
  | nil => rfl
  | cons s t ih =>
    unfold processList
    rw [List.foldl_cons]
    show processList rem t (if rem s = true then removeFirst s [] else []) = []
    cases h : rem s
    · rw [if_neg Bool.false_ne_true]
      exact ih
    · rw [if_pos rfl]
      show processList rem t [] = []
      exact ih

theorem removeFirst_append_left (s : SeqId) (pre cur : List SeqId)
    (h : ∀ x ∈ pre, x ≠ s) :
    removeFirst s (pre ++ cur) = pre ++ removeFirst s cur := by
  induction pre with
  | nil => rfl
  | cons x t ih =>
    show (if x = s then t ++ cur else x :: removeFirst s (t ++ cur)) = _
    rw [if_neg (h x (List.mem_cons_self x t)), ih fun y hy => h y (List.mem_cons_of_mem x hy)]
    rfl

theorem processList_append_left (rem : SeqId → Bool) (snap pre cur : List SeqId)
    (h : ∀ x ∈ pre, rem x = false) :
    processList rem snap (pre ++ cur) = pre ++ processList rem snap cur := by
  induction snap generalizing cur with
  | nil => rfl
  | cons s t ih =>
    unfold processList
    rw [List.foldl_cons, List.foldl_cons]
    show processList rem t (if rem s = true then removeFirst s (pre ++ cur) else pre ++ cur) =
      pre ++ processList rem t (if rem s = true then removeFirst s cur else cur)
    cases hs : rem s
    · rw [if_neg Bool.false_ne_true, if_neg Bool.false_ne_true]
      exact ih cur
    · rw [if_pos rfl, if_pos rfl]
      rw [removeFirst_append_left s pre cur fun x hx hxs => by
        have h1 := h x hx
        rw [hxs] at h1
        simp [h1] at hs]
      exact ih (removeFirst s cur)

theorem processList_self (rem : SeqId → Bool) (ss : List SeqId) :
    processList rem ss ss = ss.filter fun s => !rem s := by
  induction ss with
  | nil => rfl
  | cons s t ih =>
    unfold processList
    rw [List.foldl_cons]
    show processList rem t (if rem s = true then removeFirst s (s :: t) else s :: t) = _
    cases hs : rem s
    · rw [if_neg Bool.false_ne_true]
      have h1 : processList rem t ([s] ++ t) = [s] ++ processList rem t t :=
        processList_append_left rem t [s] t (by
          intro x hx
          rcases List.mem_singleton.mp hx with rfl
          exact hs)
      rw [show (s :: t) = [s] ++ t from rfl, h1, ih]
      simp [List.filter_cons, hs]
    · rw [if_pos rfl]
      show processList rem t (if s = s then t else s :: removeFirst s t) = _
      rw [if_pos rfl, ih]
      simp [List.filter_cons, hs]

theorem catalogRemoveSeq_not_mem (c : Catalog) (e : EnvId) (s : SeqId)
    (h : e ∉ envs c) : catalogRemoveSeq c e s = c := by
  induction c with
  | nil => rfl
  | cons p rest ih =>
    rcases p with ⟨e', ss⟩
    show (if e' = e then _ else (e', ss) :: catalogRemoveSeq rest e s) = _
    rw [if_neg fun he => h (by rw [← he]; exact List.mem_cons_self _ _),
      ih fun hm => h (List.mem_cons_of_mem _ hm)]

/-- Shorthand for the fold step of `include_exclude`. -/
def ieStep (inc exc : Option (String → Bool)) (acc : Catalog) (p : EnvSeq) : Catalog :=
  if shouldRemove inc exc (get_seq_id p.1 p.2) then catalogRemoveSeq acc p.1 p.2 else acc

theorem include_exclude_eq_foldl (inc exc : Option (String → Bool)) (c : Catalog) :
    include_exclude inc exc c = (get_env_seqs c).foldl (ieStep inc exc) c := rfl

theorem foldl_ieStep_not_mem (inc exc : Option (String → Bool)) (c : Catalog)
    (e : EnvId) (snap : List SeqId) (h : e ∉ envs c) :
    (snap.map fun s => ((e, s) : EnvSeq)).foldl (ieStep inc exc) c = c := by
  induction snap with
  | nil => rfl
  | cons s t ih =>
    rw [List.map_cons, List.foldl_cons]
    show (t.map fun s => ((e, s) : EnvSeq)).foldl (ieStep inc exc) (ieStep inc exc c (e, s)) = c
    unfold ieStep
    cases hs : shouldRemove inc exc (get_seq_id (e, s).1 (e, s).2)
    · rw [if_neg Bool.false_ne_true]
      exact ih
    · rw [if_pos rfl, catalogRemoveSeq_not_mem c e s h]
      exact ih

theorem foldl_ieStep_head_skip (inc exc : Option (String → Bool)) (e : EnvId)
    (x : List SeqId) (r : Catalog) (pairs : List EnvSeq)
    (h : ∀ p ∈ pairs, p.1 ≠ e) :
    pairs.foldl (ieStep inc exc) ((e, x) :: r) =
      (e, x) :: pairs.foldl (ieStep inc exc) r := by
  induction pairs generalizing x r with
  | nil => rfl
  | cons p t ih =>
    rw [List.foldl_cons, List.foldl_cons]
    have hp : p.1 ≠ e := h p (List.mem_cons_self _ _)
    have ht : ∀ q ∈ t, q.1 ≠ e := fun q hq => h q (List.mem_cons_of_mem _ hq)
    unfold ieStep
    cases hs : shouldRemove inc exc (get_seq_id p.1 p.2)
    · rw [if_neg Bool.false_ne_true]
      exact ih x r ht
    · rw [if_pos rfl]
      show t.foldl (ieStep inc exc) (catalogRemoveSeq ((e, x) :: r) p.1 p.2) = _
      have hcr : catalogRemoveSeq ((e, x) :: r) p.1 p.2 =
          (e, x) :: catalogRemoveSeq r p.1 p.2 := by
        show (if e = p.1 then _ else (e, x) :: catalogRemoveSeq r p.1 p.2) = _
        rw [if_neg fun he => hp he.symm]
      rw [hcr]
      exact ih x (catalogRemoveSeq r p.1 p.2) ht

theorem foldl_ieStep_block (inc exc : Option (String → Bool)) (e : EnvId)
    (snap : List SeqId) (cur : List SeqId) (rest : Catalog)
    (hrest : e ∉ envs rest) (hcur : cur ≠ []) :
    (snap.map fun s => ((e, s) : EnvSeq)).foldl (ieStep inc exc) ((e, cur) :: rest) =
      (if processList (fun s => shouldRemove inc exc (get_seq_id e s)) snap cur = []
       then rest
       else (e, processList (fun s => shouldRemove inc exc (get_seq_id e s)) snap cur) :: rest) := by
  induction snap generalizing cur with
  | nil =>
    show (e, cur) :: rest = _
    rw [show processList (fun s => shouldRemove inc exc (get_seq_id e s)) [] cur = cur from rfl,
      if_neg hcur]
  | cons s t ih =>
    rw [List.map_cons, List.foldl_cons]
    show (t.map fun s => ((e, s) : EnvSeq)).foldl (ieStep inc exc)
        (ieStep inc exc ((e, cur) :: rest) (e, s)) = _
    unfold ieStep
    cases hs : shouldRemove inc exc (get_seq_id (e, s).1 (e, s).2)
    · rw [if_neg Bool.false_ne_true]
      have hRHS : processList (fun s => shouldRemove inc exc (get_seq_id e s)) (s :: t) cur =
          processList (fun s => shouldRemove inc exc (get_seq_id e s)) t cur := by
        unfold processList
        rw [List.foldl_cons]
        show List.foldl _ (if shouldRemove inc exc (get_seq_id e s) = true
          then removeFirst s cur else cur) t = _
        rw [if_neg fun hh => Bool.false_ne_true (hs ▸ hh)]
      rw [hRHS]
      exact ih cur hcur
    · rw [if_pos rfl]
      have hcr : catalogRemoveSeq ((e, cur) :: rest) e s =
          (if removeFirst s cur = [] then rest else (e, removeFirst s cur) :: rest) := by
        show (if e = e then _ else _) = _
        rw [if_pos rfl]
      have hRHS : processList (fun s => shouldRemove inc exc (get_seq_id e s)) (s :: t) cur =
          processList (fun s => shouldRemove inc exc (get_seq_id e s)) t (removeFirst s cur) := by
        unfold processList
        rw [List.foldl_cons]
        show List.foldl _ (if shouldRemove inc exc (get_seq_id e s) = true
          then removeFirst s cur else cur) t = _
        rw [if_pos hs]
      rw [hcr, hRHS]
      by_cases hrf : removeFirst s cur = []
      · rw [if_pos hrf, hrf, processList_nil_cur, if_pos rfl]
        exact foldl_ieStep_not_mem inc exc rest e t hrest
      · rw [if_neg hrf]
        exact ih (removeFirst s cur) hrf

theorem mem_envs_of_mem_env_seqs (c : Catalog) (p : EnvSeq)
    (h : p ∈ get_env_seqs c) : p.1 ∈ envs c := by
  induction c with
  | nil => cases h
  | cons q rest ih =>
    rcases List.mem_append.mp h with h1 | h1
    · rcases List.mem_map.mp h1 with ⟨s, _, rfl⟩
      exact List.mem_cons_self _ _
    · exact List.mem_cons_of_mem _ (ih h1)

theorem filterCatalog_cons (inc exc : Option (String → Bool)) (e : EnvId)
    (ss : List SeqId) (rest : Catalog) :
    filterCatalog inc exc ((e, ss) :: rest) =
      (if (ss.filter fun s => !shouldRemove inc exc (get_seq_id e s)) = []
       then filterCatalog inc exc rest
       else (e, ss.filter fun s => !shouldRemove inc exc (get_seq_id e s)) ::
         filterCatalog inc exc rest) := by
  unfold filterCatalog
  rw [List.filterMap_cons]
  by_cases h : (ss.filter fun s => !shouldRemove inc exc (get_seq_id e s)) = [] <;>
    simp only [h, if_true, if_false, if_pos, if_neg]

/-- The mutating loop of `include_exclude` computes the one-pass filter, for
any catalog satisfying the data-model invariants (distinct environment keys,
no empty sequence list). -/
theorem include_exclude_eq_filterCatalog (inc exc : Option (String → Bool))
    (c : Catalog) (hnd : (envs c).Nodup) (hne : ∀ p ∈ c, p.2 ≠ []) :
    include_exclude inc exc c = filterCatalog inc exc c := by
  induction c with
  | nil => rfl
  | cons q rest ih =>
    rcases q with ⟨e, ss⟩
    rw [include_exclude_eq_foldl]
    show ((ss.map fun s => ((e, s) : EnvSeq)) ++ get_env_seqs rest).foldl
        (ieStep inc exc) ((e, ss) :: rest) = _
    rw [List.foldl_append]
    have hrest : e ∉ envs rest := (List.nodup_cons.mp hnd).1
    have hss : ss ≠ [] := hne (e, ss) (List.mem_cons_self _ _)
    rw [foldl_ieStep_block inc exc e ss ss rest hrest hss,
      processList_self (fun s => shouldRemove inc exc (get_seq_id e s)) ss]
    have ihr : (get_env_seqs rest).foldl (ieStep inc exc) rest = filterCatalog inc exc rest := by
      have h := ih (List.nodup_cons.mp hnd).2 fun p hp => hne p (List.mem_cons_of_mem _ hp)
      rw [include_exclude_eq_foldl] at h
      exact h
    rw [filterCatalog_cons]
    by_cases hE : (ss.filter fun s => !shouldRemove inc exc (get_seq_id e s)) = []
    · rw [if_pos hE, if_pos hE]
      exact ihr
    · rw [if_neg hE, if_neg hE]
      have hskip := foldl_ieStep_head_skip inc exc e
        (ss.filter fun s => !shouldRemove inc exc (get_seq_id e s)) rest
        (get_env_seqs rest)
        (fun p hp he => hrest (he ▸ mem_envs_of_mem_env_seqs rest p hp))
      rw [hskip, ihr]

/-! ## Lemmas about `rand_split` -/

theorem fyShuffle_nil (st : Nat) : fyShuffle st [] = [] := by
  rw [fyShuffle]

theorem fyShuffle_cons (st : Nat) (x : Nat) (xs : List Nat) :
    fyShuffle st (x :: xs) =
      (x :: xs).getD (st % (x :: xs).length) 0 ::
        fyShuffle (lcgStep st) ((x :: xs).eraseIdx (st % (x :: xs).length)) := by
  rw [fyShuffle]

theorem fyShuffle_perm (st : Nat) (l : List Nat) : List.Perm (fyShuffle st l) l := by
  have main : ∀ (N : Nat) (st : Nat) (l : List Nat), l.length ≤ N →
      List.Perm (fyShuffle st l) l := by
    intro N
    induction N with
    | zero =>
      intro st l hl
      rcases List.eq_nil_of_length_eq_zero (Nat.le_zero.mp hl) with rfl
      rw [fyShuffle_nil]
    | succ N ih =>
      intro st l hl
      cases l with
      | nil => rw [fyShuffle_nil]
      | cons x xs =>
        rw [fyShuffle_cons]
        have hi : st % (x :: xs).length < (x :: xs).length := Nat.mod_lt _ (by simp)
        rw [List.getD_eq_getElem _ _ hi]
        have h2 : ((x :: xs).eraseIdx (st % (x :: xs).length)).length ≤ N := by
          rw [List.length_eraseIdx_of_lt hi]
          simp only [List.length_cons] at hl ⊢
          omega
        have h3 := ih (lcgStep st) _ h2
        exact (List.Perm.cons _ h3).trans
          (((List.perm_cons_erase (List.getElem_mem hi)).trans
            (List.Perm.cons _ (List.erase_getElem hi))).symm)
  exact main l.length st l (Nat.le_refl _)

theorem npPermutation_perm (seed total : Nat) :
    List.Perm (npPermutation seed total) (List.range total) :=
  fyShuffle_perm (lcgStep seed) (List.range total)

theorem npPermutation_length (seed total : Nat) :
    (npPermutation seed total).length = total := by
  rw [(npPermutation_perm seed total).length_eq, List.length_range]

theorem insertSorted_perm (x : Nat) (l : List Nat) :
    List.Perm (insertSorted x l) (x :: l) := by
  induction l with
  | nil => exact List.Perm.refl _
  | cons y ys ih =>
    unfold insertSorted
    by_cases h : x ≤ y
    · rw [if_pos h]
    · rw [if_neg h]
      exact (List.Perm.cons y ih).trans (List.Perm.swap x y ys)

theorem sortAsc_perm (l : List Nat) : List.Perm (sortAsc l) l := by
  induction l with
  | nil => exact List.Perm.refl _
  | cons x xs ih =>
    exact (insertSorted_perm x (sortAsc xs)).trans (List.Perm.cons x ih)

theorem map_getD_range (l : List α) (d : α) :
    (List.range l.length).map (fun i => l.getD i d) = l := by
  induction l with
  | nil => rfl
  | cons x xs ih =>
    rw [show (x :: xs).length = xs.length + 1 from rfl, List.range_succ_eq_map,
      List.map_cons, List.map_map]
    show x :: (List.range xs.length).map (fun i => xs.getD i d) = x :: xs
    rw [ih]

theorem slice_join (l : List α) (a i : Nat) (h : a ≤ i) :
    (l.take i).drop a ++ l.drop i = l.drop a := by
  rcases Nat.le_total i l.length with hi | hi
  · have hlen : (l.take i).length = i := by
      rw [List.length_take]
      exact Nat.min_eq_left hi
    have h2 : l.drop a = (l.take i).drop a ++ (l.drop i).drop (a - (l.take i).length) := by
      conv_lhs => rw [← List.take_append_drop i l]
      exact List.drop_append_eq_append_drop
    rw [h2, hlen, Nat.sub_eq_zero_of_le h, List.drop_zero]
  · rw [List.take_of_length_le hi, List.drop_eq_nil_of_le hi, List.append_nil]

theorem npSplit_flatten_aux (l : List α) :
    ∀ (idx : List Nat) (a : Nat), List.Chain' (· ≤ ·) (a :: idx) →
      ((List.zip (a :: idx) (idx ++ [l.length])).map fun p => (l.take p.2).drop p.1).flatten
        = l.drop a := by
  intro idx
  induction idx with
  | nil =>
    intro a _
    show (l.take l.length).drop a ++ [] = l.drop a
    rw [List.take_length, List.append_nil]
  | cons i rest ih =>
    intro a hchain
    rcases List.chain'_cons.mp hchain with ⟨h1, h2⟩
    show (l.take i).drop a ++
        ((List.zip (i :: rest) (rest ++ [l.length])).map fun p => (l.take p.2).drop p.1).flatten
        = l.drop a
    rw [ih i h2, slice_join l a i h1]

theorem npSplit_flatten (l : List α) (idx : List Nat)
    (h : List.Chain' (· ≤ ·) idx) :
    (npSplit l idx).flatten = l := by
  have h0 : List.Chain' (· ≤ ·) (0 :: idx) :=
    List.chain'_cons'.mpr ⟨fun y _ => Nat.zero_le y, h⟩
  have h1 := npSplit_flatten_aux l idx 0 h0
  rw [List.drop_zero] at h1
  exact h1

theorem npSplit_length (l : List α) (idx : List Nat) :
    (npSplit l idx).length = idx.length + 1 := by
  unfold npSplit
  rw [List.length_map, List.length_zip, List.length_cons, List.length_append]
  simp

theorem addPair_env_seqs (c : Catalog) (e : EnvId) (s : SeqId) :
    List.Perm (get_env_seqs (addPair c e s)) (get_env_seqs c ++ [(e, s)]) := by
  induction c with
  | nil => exact List.Perm.refl _
  | cons q rest ih =>
    show List.Perm (get_env_seqs (if q.1 = e then (q.1, q.2 ++ [s]) :: rest
      else q :: addPair rest e s)) _
    by_cases h : q.1 = e
    · rw [if_pos h]
      subst h
      show List.Perm (((q.2 ++ [s]).map fun t => (q.1, t)) ++ get_env_seqs rest)
        (((q.2.map fun t => (q.1, t)) ++ get_env_seqs rest) ++ [(q.1, s)])
      rw [List.map_append, List.append_assoc, List.append_assoc]
      exact List.Perm.append_left _ List.perm_append_comm
    · rw [if_neg h]
      show List.Perm ((q.2.map fun t => (q.1, t)) ++ get_env_seqs (addPair rest e s))
        (((q.2.map fun t => (q.1, t)) ++ get_env_seqs rest) ++ [(e, s)])
      rw [List.append_assoc]
      exact List.Perm.append_left _ ih

theorem buildCatalog_env_seqs_aux (ps : List EnvSeq) :
    ∀ c : Catalog,
      List.Perm (get_env_seqs (ps.foldl (fun c p => addPair c p.1 p.2) c))
        (get_env_seqs c ++ ps) := by
  induction ps with
  | nil =>
    intro c
    rw [List.foldl_nil, List.append_nil]
  | cons p t ih =>
    intro c
    rw [List.foldl_cons]
    have h1 := ih (addPair c p.1 p.2)
    have h2 : List.Perm (get_env_seqs (addPair c p.1 p.2) ++ t)
        ((get_env_seqs c ++ [(p.1, p.2)]) ++ t) :=
      List.Perm.append_right t (addPair_env_seqs c p.1 p.2)
    have h3 : (get_env_seqs c ++ [(p.1, p.2)]) ++ t = get_env_seqs c ++ p :: t := by
      rw [List.append_assoc]
      rfl
    rw [← h3]
    exact h1.trans h2

theorem buildCatalog_env_seqs (ps : List EnvSeq) :
    List.Perm (get_env_seqs (buildCatalog ps)) ps :=
  buildCatalog_env_seqs_aux ps []

theorem flatten_map_perm (l : List β) (f g : β → List γ)
    (h : ∀ x ∈ l, List.Perm (f x) (g x)) :
    List.Perm ((l.map f).flatten) ((l.map g).flatten) := by
  induction l with
  | nil => exact List.Perm.refl _
  | cons x xs ih =>
    rw [List.map_cons, List.map_cons, List.flatten_cons, List.flatten_cons]
    exact (h x (List.mem_cons_self _ _)).append
      (ih fun y hy => h y (List.mem_cons_of_mem _ hy))

theorem cumsumFrom_length (a : ℤ) (l : List ℤ) :
    (cumsumFrom a l).length = l.length := by
  induction l generalizing a with
  | nil => rfl
  | cons x xs ih =>
    show (cumsumFrom (a + x) xs).length + 1 = xs.length + 1
    rw [ih]

theorem cumsumFrom_chain' (a : ℤ) (l : List ℤ) (h : ∀ x ∈ l, 0 ≤ x) :
    List.Chain' (· ≤ ·) (cumsumFrom a l) := by
  induction l generalizing a with
  | nil => exact List.chain'_nil
  | cons x xs ih =>
    show List.Chain' (· ≤ ·) ((a + x) :: cumsumFrom (a + x) xs)
    refine List.chain'_cons'.mpr
      ⟨?_, ih (a + x) fun y hy => h y (List.mem_cons_of_mem _ hy)⟩
    intro y hy
    cases xs with
    | nil => cases hy
    | cons z zs =>
      have hy2 : y = a + x + z := by
        have : (cumsumFrom (a + x) (z :: zs)).head? = some (a + x + z) := rfl
        rw [this] at hy
        exact (Option.mem_some_iff.mp hy).symm
      have hz : 0 ≤ z := h z (List.mem_cons_of_mem _ (List.mem_cons_self _ _))
      omega

theorem cumsumFrom_nonneg (a : ℤ) (l : List ℤ) (ha : 0 ≤ a)
    (h : ∀ x ∈ l, 0 ≤ x) : ∀ y ∈ cumsumFrom a l, 0 ≤ y := by
  induction l generalizing a with
  | nil => intro y hy; cases hy
  | cons x xs ih =>
    intro y hy
    have hx : 0 ≤ x := h x (List.mem_cons_self _ _)
    rcases List.mem_cons.mp hy with rfl | hy'
    · omega
    · exact ih (a + x) (by omega) (fun z hz => h z (List.mem_cons_of_mem _ hz)) y hy'

theorem cumsumFrom_getD (a : ℤ) (l : List ℤ) :
    ∀ j, j < l.length → (cumsumFrom a l).getD j 0 = a + (l.take (j + 1)).sum := by
  induction l generalizing a with
  | nil => intro j hj; cases hj
  | cons x xs ih =>
    intro j hj
    cases j with
    | zero =>
      show a + x = a + ((x :: xs).take 1).sum
      simp
    | succ n =>
      show (cumsumFrom (a + x) xs).getD n 0 = a + ((x :: xs).take (n + 2)).sum
      rw [ih (a + x) n (by simpa using hj)]
      show a + x + (xs.take (n + 1)).sum = a + (x :: xs.take (n + 1)).sum
      rw [List.sum_cons]
      ring

theorem npRound_nonneg (x : ℚ) (h : 0 ≤ x) : 0 ≤ npRound x := by
  unfold npRound
  have hf : (0 : ℤ) ≤ ⌊x⌋ := Int.floor_nonneg.mpr h
  split_ifs <;> omega

theorem npRound_close (x : ℚ) : |(npRound x : ℚ) - x| ≤ 1 / 2 := by
  unfold npRound
  have h1 : (⌊x⌋ : ℚ) ≤ x := Int.floor_le x
  have h2 : x < ⌊x⌋ + 1 := Int.lt_floor_add_one x
  split_ifs with hlt hgt heven
  · rw [abs_le]
    constructor <;> linarith
  · rw [abs_le]
    push_cast
    constructor <;> linarith
  · rw [abs_le]
    have h3 : x - ⌊x⌋ = 1 / 2 := by linarith
    constructor <;> linarith
  · rw [abs_le]
    have h3 : x - ⌊x⌋ = 1 / 2 := by linarith
    push_cast
    constructor <;> linarith

theorem sum_map_npRound_close (ys : List ℚ) :
    |(((ys.map npRound).sum : ℤ) : ℚ) - ys.sum| ≤ (ys.length : ℚ) / 2 := by
  induction ys with
  | nil => simp
  | cons y t ih =>
    rw [List.map_cons, List.sum_cons, List.sum_cons]
    have h1 := npRound_close y
    have h2 : ((npRound y + (t.map npRound).sum : ℤ) : ℚ) =
        (npRound y : ℚ) + (((t.map npRound).sum : ℤ) : ℚ) := by
      push_cast
      ring
    rw [h2]
    have h3 : (npRound y : ℚ) + (((t.map npRound).sum : ℤ) : ℚ) - (y + t.sum) =
        ((npRound y : ℚ) - y) + ((((t.map npRound).sum : ℤ) : ℚ) - t.sum) := by ring
    rw [h3]
    refine le_trans (abs_add _ _) ?_
    have h4 : ((y :: t).length : ℚ) = (t.length : ℚ) + 1 := by
      rw [List.length_cons]
      push_cast
      ring
    rw [h4]
    linarith

theorem sum_take_succ_getD {M : Type} [AddCommMonoid M] (l : List M) (j : Nat)
    (hj : j < l.length) :
    (l.take (j + 1)).sum = (l.take j).sum + l.getD j 0 := by
  rw [List.take_succ]
  have h1 : l[j]? = some l[j] := List.getElem?_eq_getElem hj
  rw [h1, List.sum_append]
  rw [List.getD_eq_getElem _ _ hj]
  simp

theorem getD_map_toNat (l : List ℤ) (j : Nat) :
    (l.map Int.toNat).getD j 0 = (l.getD j 0).toNat := by
  rcases Nat.lt_or_ge j l.length with h | h
  · have h2 : j < (l.map Int.toNat).length := by
      rw [List.length_map]
      exact h
    rw [List.getD_eq_getElem _ _ h2, List.getD_eq_getElem _ _ h, List.getElem_map]
  · rw [List.getD_eq_default _ _ (by rw [List.length_map]; exact h),
      List.getD_eq_default _ _ h]
    rfl

theorem getD_dropLast_eq (l : List ℤ) (j : Nat) (h : j < l.length - 1) :
    l.dropLast.getD j 0 = l.getD j 0 := by
  have h1 : j < l.dropLast.length := by
    rw [List.length_dropLast]
    exact h
  have h2 : j < l.length := by omega
  rw [List.getD_eq_getElem _ _ h1, List.getD_eq_getElem _ _ h2, List.getElem_dropLast]

theorem chain'_le_getD (idx : List Nat) (h : List.Chain' (· ≤ ·) idx) (i : Nat)
    (hi : i + 1 < idx.length) :
    idx.getD i 0 ≤ idx.getD (i + 1) 0 := by
  have h1 := List.chain'_iff_get.mp h i (by omega)
  rw [List.getD_eq_getElem _ _ (by omega : i < idx.length),
    List.getD_eq_getElem _ _ hi]
  exact h1

theorem npSplit_getD (l : List α) (idx : List Nat) (j : Nat)
    (hj : j < idx.length + 1) :
    (npSplit l idx).getD j [] =
      (l.take ((idx ++ [l.length]).getD j 0)).drop ((0 :: idx).getD j 0) := by
  have hjl : j < (npSplit l idx).length := by
    rw [npSplit_length]
    exact hj
  have h₁ : j < (idx ++ [l.length]).length := by
    rw [List.length_append, List.length_singleton]
    exact hj
  have h₂ : j < (0 :: idx).length := by
    rw [List.length_cons]
    exact hj
  rw [List.getD_eq_getElem _ _ hjl, List.getD_eq_getElem _ _ h₁,
    List.getD_eq_getElem _ _ h₂]
  unfold npSplit at hjl ⊢
  rw [List.getElem_map, List.getElem_zip]

/-- The sizes of the `np.split` slices at the cumulative rounded boundaries
are each within `len(xs)` of the exact (unrounded) target `xs[j]`, for
non-negative targets summing exactly to the length of the array split. -/
theorem npSplit_cumsum_size_bound (l : List α) (xs : List ℚ)
    (hnn : ∀ x ∈ xs, 0 ≤ x) (hsum : xs.sum = (l.length : ℚ)) :
    ∀ j, j < xs.length →
      |((((npSplit l (((cumsum (xs.map npRound)).dropLast).map Int.toNat)).getD
          j []).length : ℚ) - xs.getD j 0)| ≤ (xs.length : ℚ) := by
  intro j hj
  set T : Nat := l.length with hT
  set k : Nat := xs.length with hk
  set rounds : List ℤ := xs.map npRound with hrounds
  set Cs : List ℤ := cumsum rounds with hCsdef
  set idx : List Nat := (Cs.dropLast).map Int.toNat with hidx
  have hklen : rounds.length = k := by rw [hrounds, List.length_map]
  have hCl : Cs.length = k := by
    rw [hCsdef, show cumsum rounds = cumsumFrom 0 rounds from rfl,
      cumsumFrom_length, hklen]
  have hil : idx.length = k - 1 := by
    rw [hidx, List.length_map, List.length_dropLast, hCl]
  have hnnr : ∀ x ∈ rounds, 0 ≤ x := by
    intro x hx
    rcases List.mem_map.mp hx with ⟨r, hr, rfl⟩
    exact npRound_nonneg _ (hnn r hr)
  have hCgetD : ∀ i, i < k → Cs.getD i 0 = (rounds.take (i + 1)).sum := by
    intro i hi
    rw [hCsdef, show cumsum rounds = cumsumFrom 0 rounds from rfl,
      cumsumFrom_getD 0 rounds i (by omega), zero_add]
  have hCnn : ∀ i, i < k → 0 ≤ Cs.getD i 0 := by
    intro i hi
    rw [hCgetD i hi]
    exact List.sum_nonneg fun x hx => hnnr x (List.take_subset _ _ hx)
  have hCmono : ∀ i, i + 1 < k → Cs.getD i 0 ≤ Cs.getD (i + 1) 0 := by
    intro i hi
    rw [hCgetD i (by omega), hCgetD (i + 1) hi,
      sum_take_succ_getD rounds (i + 1) (by omega)]
    have h0 : 0 ≤ rounds.getD (i + 1) 0 := by
      rw [List.getD_eq_getElem _ _ (show i + 1 < rounds.length by omega)]
      exact hnnr _ (List.getElem_mem _)
    omega
  have hCerr : ∀ i, i < k → |((Cs.getD i 0 : ℤ) : ℚ) - (xs.take (i + 1)).sum|
      ≤ ((i + 1 : Nat) : ℚ) / 2 := by
    intro i hi
    rw [hCgetD i hi, hrounds, ← List.map_take]
    refine le_trans (sum_map_npRound_close (xs.take (i + 1))) ?_
    have h1 : ((xs.take (i + 1)).length : ℚ) ≤ ((i + 1 : Nat) : ℚ) := by
      exact_mod_cast List.length_take_le (i + 1) xs
    linarith
  have hEleT : ∀ i : Nat, (xs.take i).sum ≤ (T : ℚ) := by
    intro i
    rw [← hsum]
    exact (List.take_sublist i xs).sum_le_sum hnn
  have hFerr : ∀ i, i < k →
      |min ((Cs.getD i 0 : ℤ) : ℚ) (T : ℚ) - (xs.take (i + 1)).sum|
        ≤ ((i + 1 : Nat) : ℚ) / 2 := by
    intro i hi
    rcases le_total ((Cs.getD i 0 : ℤ) : ℚ) (T : ℚ) with hle | hle
    · rw [min_eq_left hle]
      exact hCerr i hi
    · rw [min_eq_right hle]
      have h1 := hCerr i hi
      have h2 := hEleT (i + 1)
      rcases abs_le.mp h1 with ⟨_, h4⟩
      rw [abs_of_nonneg (by linarith)]
      linarith
  have hsz : ((npSplit l idx).getD j []).length =
      min ((idx ++ [T]).getD j 0) T - (0 :: idx).getD j 0 := by
    rw [npSplit_getD l idx j (by omega), List.length_drop, List.length_take]
  have haln : ∀ m, m < k - 1 → (0 :: idx).getD (m + 1) 0 = (Cs.getD m 0).toNat := by
    intro m hm
    rw [List.getD_cons_succ, hidx, getD_map_toNat, getD_dropLast_eq _ _ (by omega)]
  have htoNatCast : ∀ m, m < k → (((Cs.getD m 0).toNat : Nat) : ℚ) =
      ((Cs.getD m 0 : ℤ) : ℚ) := by
    intro m hm
    have h1 : ((Cs.getD m 0).toNat : ℤ) = Cs.getD m 0 :=
      Int.toNat_of_nonneg (hCnn m hm)
    rw [← h1]
    exact (Int.cast_natCast _).symm
  have hEdiff : (xs.take (j + 1)).sum = (xs.take j).sum + xs.getD j 0 :=
    sum_take_succ_getD xs j (by omega)
  have hkQ : ((j : ℚ) + 1) ≤ (k : ℚ) := by exact_mod_cast hj
  rw [hsz]
  rcases Nat.eq_zero_or_pos j with rfl | hj1
  · -- j = 0 : the start is 0
    rw [List.getD_cons_zero, Nat.sub_zero]
    rcases Nat.lt_or_ge 1 k with hk2 | hk2
    · -- j + 1 < k : the end is the first rounded boundary
      have hb : (idx ++ [T]).getD 0 0 = (Cs.getD 0 0).toNat := by
        rw [List.getD_append _ _ _ _ (by omega), hidx, getD_map_toNat,
          getD_dropLast_eq _ _ (by omega)]
      rw [hb]
      have hcast : ((min (Cs.getD 0 0).toNat T : Nat) : ℚ) =
          min ((Cs.getD 0 0 : ℤ) : ℚ) (T : ℚ) := by
        rw [Nat.cast_min, htoNatCast 0 (by omega)]
      rw [hcast]
      have h1 := hFerr 0 (by omega)
      have h2 : (xs.take (0 + 1)).sum = xs.getD 0 0 := by
        rw [hEdiff]
        simp
      rw [h2] at h1
      have h3 : ((0 + 1 : Nat) : ℚ) / 2 ≤ (k : ℚ) := by
        push_cast
        linarith
      exact le_trans h1 h3
    · -- k = 1 : the end is T itself
      have hkeq : k = 1 := by omega
      have hb : (idx ++ [T]).getD 0 0 = T := by
        have h0 : idx.length = 0 := by omega
        rw [List.getD_append_right _ _ _ _ (by omega), h0]
        rfl
      rw [hb, Nat.min_self]
      have h2 : xs.getD 0 0 = (xs.take (0 + 1)).sum := by
        rw [hEdiff]
        simp
      have h3 : xs.take (0 + 1) = xs := List.take_of_length_le (by omega)
      rw [h2, h3, hsum]
      simp
  · -- 1 ≤ j
    have ha : (0 :: idx).getD j 0 = (Cs.getD (j - 1) 0).toNat := by
      have h1 : j - 1 + 1 = j := by omega
      have h2 := haln (j - 1) (by omega)
      rw [h1] at h2
      exact h2
    rcases Nat.lt_or_ge (j + 1) k with hk2 | hk2
    · -- j + 1 < k : both boundaries rounded
      have hb : (idx ++ [T]).getD j 0 = (Cs.getD j 0).toNat := by
        rw [List.getD_append _ _ _ _ (by omega), hidx, getD_map_toNat,
          getD_dropLast_eq _ _ (by omega)]
      rw [ha, hb]
      have hmono : (Cs.getD (j - 1) 0).toNat ≤ (Cs.getD j 0).toNat := by
        have h1 : j - 1 + 1 = j := by omega
        have := hCmono (j - 1) (by omega)
        rw [h1] at this
        exact Int.toNat_le_toNat this
      have hnat : min (Cs.getD j 0).toNat T - (Cs.getD (j - 1) 0).toNat =
          min (Cs.getD j 0).toNat T - min (Cs.getD (j - 1) 0).toNat T := by
        omega
      rw [hnat]
      have hcastsub : ((min (Cs.getD j 0).toNat T -
          min (Cs.getD (j - 1) 0).toNat T : Nat) : ℚ) =
          min ((Cs.getD j 0 : ℤ) : ℚ) (T : ℚ) -
            min ((Cs.getD (j - 1) 0 : ℤ) : ℚ) (T : ℚ) := by
        rw [Nat.cast_sub (by omega), Nat.cast_min, Nat.cast_min,
          htoNatCast j (by omega), htoNatCast (j - 1) (by omega)]
      rw [hcastsub]
      have h1 := hFerr j (by omega)
      have h2 := hFerr (j - 1) (by omega)
      have h3 : j - 1 + 1 = j := by omega
      rw [h3] at h2
      have h4 : min ((Cs.getD j 0 : ℤ) : ℚ) (T : ℚ) -
          min ((Cs.getD (j - 1) 0 : ℤ) : ℚ) (T : ℚ) - xs.getD j 0 =
          (min ((Cs.getD j 0 : ℤ) : ℚ) (T : ℚ) - (xs.take (j + 1)).sum) -
            (min ((Cs.getD (j - 1) 0 : ℤ) : ℚ) (T : ℚ) - (xs.take j).sum) := by
        rw [hEdiff]
        ring
      rw [h4]
      refine le_trans (abs_sub _ _) ?_
      have h5 : ((j + 1 : Nat) : ℚ) = (j : ℚ) + 1 := by push_cast; ring
      rw [h5] at h1
      linarith [h1, h2]
    · -- j + 1 = k : the end is T itself
      have hkeq : j + 1 = k := by omega
      have hb : (idx ++ [T]).getD j 0 = T := by
        rw [List.getD_append_right _ _ _ _ (by omega)]
        have h0 : j - idx.length = 0 := by omega
        rw [h0]
        rfl
      rw [ha, hb, Nat.min_self]
      have hnat : T - (Cs.getD (j - 1) 0).toNat =
          T - min (Cs.getD (j - 1) 0).toNat T := by omega
      rw [hnat]
      have hcastsub : ((T - min (Cs.getD (j - 1) 0).toNat T : Nat) : ℚ) =
          (T : ℚ) - min ((Cs.getD (j - 1) 0 : ℤ) : ℚ) (T : ℚ) := by
        rw [Nat.cast_sub (by omega), Nat.cast_min, htoNatCast (j - 1) (by omega)]
      rw [hcastsub]
      have h2 := hFerr (j - 1) (by omega)
      have h3 : j - 1 + 1 = j := by omega
      rw [h3] at h2
      have hET : (xs.take (j + 1)).sum = (T : ℚ) := by
        rw [show xs.take (j + 1) = xs from List.take_of_length_le (by omega), hsum]
      have h4 : (T : ℚ) - min ((Cs.getD (j - 1) 0 : ℤ) : ℚ) (T : ℚ) - xs.getD j 0 =
          (xs.take j).sum - min ((Cs.getD (j - 1) 0 : ℤ) : ℚ) (T : ℚ) := by
        have := hEdiff
        rw [hET] at this
        linarith
      rw [h4, abs_sub_comm]
      refine le_trans h2 ?_
      linarith

/-- The partition core of `rand_split`: `len(ratios)` subsets whose pair
lists concatenate, up to permutation, to the parent's pair list. -/
theorem rand_split_partition (c : Catalog) (ratios : List ℚ) (seed : Nat)
    (hnn : ∀ r ∈ ratios, 0 ≤ r) (hpos : 0 < ratios.sum) :
    (rand_split c ratios seed).length = ratios.length ∧
    List.Perm ((rand_split c ratios seed).map get_env_seqs).flatten
      (get_env_seqs c) := by
  have hne : ratios ≠ [] := by
    intro h
    rw [h] at hpos
    simp at hpos
  set env_seqs := get_env_seqs c with henv
  set T : Nat := env_seqs.length with hT
  set rounds : List ℤ := ratios.map fun r => npRound (r / ratios.sum * T) with hrounds
  set split_idx : List Nat := ((cumsum rounds).dropLast).map Int.toNat with hidx
  have hrform : rand_split c ratios seed =
      (npSplit (npPermutation seed T) split_idx).map fun pm =>
        buildCatalog ((sortAsc pm).map fun i => env_seqs.getD i ("", "")) := rfl
  have hnnr : ∀ x ∈ rounds, 0 ≤ x := by
    intro x hx
    rcases List.mem_map.mp hx with ⟨r, hr, rfl⟩
    refine npRound_nonneg _ ?_
    have h0 : 0 ≤ r / ratios.sum := div_nonneg (hnn r hr) (le_of_lt hpos)
    positivity
  have hchain : List.Chain' (· ≤ ·) split_idx := by
    rw [hidx, List.chain'_map]
    have hc : List.Chain' (· ≤ ·) (cumsum rounds) := cumsumFrom_chain' 0 rounds hnnr
    have hd : List.Chain' (· ≤ ·) ((cumsum rounds).dropLast) :=
      hc.sublist (List.dropLast_sublist _)
    exact hd.imp fun a b hab => Int.toNat_le_toNat hab
  constructor
  · rw [hrform, List.length_map, npSplit_length, hidx, List.length_map,
      List.length_dropLast, show cumsum rounds = cumsumFrom 0 rounds from rfl,
      cumsumFrom_length, hrounds, List.length_map]
    have : ratios.length ≠ 0 := fun h => hne (List.eq_nil_of_length_eq_zero h)
    omega
  · rw [hrform, List.map_map]
    have hstep1 : List.Perm
        (((npSplit (npPermutation seed T) split_idx).map
          (get_env_seqs ∘ fun pm =>
            buildCatalog ((sortAsc pm).map fun i => env_seqs.getD i ("", "")))).flatten)
        (((npSplit (npPermutation seed T) split_idx).map
          (fun pm => pm.map fun i => env_seqs.getD i ("", ""))).flatten) := by
      refine flatten_map_perm _ _ _ ?_
      intro pm _
      refine (buildCatalog_env_seqs _).trans ?_
      exact (sortAsc_perm pm).map _
    refine hstep1.trans ?_
    rw [← List.map_flatten, npSplit_flatten _ _ hchain]
    have hstep2 : List.Perm
        ((npPermutation seed T).map fun i => env_seqs.getD i ("", ""))
        ((List.range T).map fun i => env_seqs.getD i ("", "")) :=
      (npPermutation_perm seed T).map _
    refine hstep2.trans ?_
    rw [hT, map_getD_range]

theorem sum_map_mul (l : List ℚ) (q : ℚ) :
    (l.map fun r => r * q).sum = l.sum * q := by
  induction l with
  | nil => simp
  | cons x t ih =>
    rw [List.map_cons, List.sum_cons, List.sum_cons, ih]
    ring

/-! ## Claims C3, C4 -/

/-- C3: for a catalog whose pair list has no duplicates, non-negative ratios
with positive sum, and any seed, `rand_split` returns exactly `len(ratios)`
subsets; their pair lists concatenate, up to permutation, to the parent's
pair list (each parent pair lands in exactly one subset); the subsets' pair
sets are pairwise disjoint; and each subset's size is within `len(ratios)` of
the exact proportional target `ratios[j] / sum(ratios) * T`. -/
theorem claim3_rand_split_partition (c : Catalog) (ratios : List ℚ) (seed : Nat)
    (hnn : ∀ r ∈ ratios, 0 ≤ r) (hpos : 0 < ratios.sum)
    (hnd : (get_env_seqs c).Nodup) :
    (rand_split c ratios seed).length = ratios.length ∧
    List.Perm ((rand_split c ratios seed).map get_env_seqs).flatten
      (get_env_seqs c) ∧
    List.Pairwise List.Disjoint ((rand_split c ratios seed).map get_env_seqs) ∧
    (∀ j, j < ratios.length →
      |((get_env_seqs ((rand_split c ratios seed).getD j [])).length : ℚ)
        - ratios.getD j 0 / ratios.sum * ((get_env_seqs c).length : ℚ)|
        ≤ (ratios.length : ℚ)) := by
  obtain ⟨hlen, hperm⟩ := rand_split_partition c ratios seed hnn hpos
  have hSne : ratios.sum ≠ 0 := ne_of_gt hpos
  set T : Nat := (get_env_seqs c).length with hT
  set xs : List ℚ := ratios.map fun r => r / ratios.sum * (T : ℚ) with hxs
  have hxlen : xs.length = ratios.length := by rw [hxs, List.length_map]
  have hxnn : ∀ x ∈ xs, 0 ≤ x := by
    intro x hx
    rcases List.mem_map.mp hx with ⟨r, hr, rfl⟩
    have h0 : 0 ≤ r / ratios.sum := div_nonneg (hnn r hr) (le_of_lt hpos)
    positivity
  have hxsum : xs.sum = (T : ℚ) := by
    have h1 : xs = ratios.map fun r => r * ((T : ℚ) / ratios.sum) :=
      List.map_congr_left fun r _ => by ring
    rw [h1, sum_map_mul, mul_div_assoc']
    rw [mul_comm]
    exact mul_div_cancel_right₀ _ hSne
  refine ⟨hlen, hperm, ?_, ?_⟩
  · have hflat : (((rand_split c ratios seed).map get_env_seqs).flatten).Nodup :=
      (hperm.nodup_iff).mpr hnd
    exact (List.nodup_flatten.mp hflat).2
  · intro j hj
    have hbridge : xs.map npRound =
        ratios.map fun r => npRound (r / ratios.sum * (T : ℚ)) := by
      rw [hxs, List.map_map]
      rfl
    have hform : rand_split c ratios seed =
        (npSplit (npPermutation seed T)
          (((cumsum (xs.map npRound)).dropLast).map Int.toNat)).map fun pm =>
            buildCatalog ((sortAsc pm).map fun i =>
              (get_env_seqs c).getD i ("", "")) := by
      rw [hbridge]
      rfl
    set idx2 : List Nat := ((cumsum (xs.map npRound)).dropLast).map Int.toNat
      with hidx2
    have hjlt : j < (npSplit (npPermutation seed T) idx2).length := by
      have h1 : (rand_split c ratios seed).length = ratios.length := hlen
      rw [hform, List.length_map] at h1
      omega
    have hsub : (rand_split c ratios seed).getD j [] =
        buildCatalog ((sortAsc ((npSplit (npPermutation seed T) idx2).getD j [])).map
          fun i => (get_env_seqs c).getD i ("", "")) := by
      rw [hform, List.getD_eq_getElem _ _ (by rw [List.length_map]; exact hjlt),
        List.getElem_map, List.getD_eq_getElem _ _ hjlt]
    have hglen : (get_env_seqs ((rand_split c ratios seed).getD j [])).length =
        ((npSplit (npPermutation seed T) idx2).getD j []).length := by
      rw [hsub, (buildCatalog_env_seqs _).length_eq, List.length_map,
        (sortAsc_perm _).length_eq]
    have hbound := npSplit_cumsum_size_bound (npPermutation seed T) xs hxnn
      (by rw [npPermutation_length]; exact hxsum) j (by omega)
    rw [hglen]
    have htarget : xs.getD j 0 = ratios.getD j 0 / ratios.sum * (T : ℚ) := by
      rw [hxs, List.getD_eq_getElem _ _ (show j < (List.map _ ratios).length by
          rw [List.length_map]; exact hj),
        List.getElem_map, List.getD_eq_getElem _ _ hj]
    rw [← htarget, ← hxlen]
    exact hbound

theorem claim3_rand_split_partition_witness :
    ((∀ r ∈ [(1 : ℚ), 1], 0 ≤ r) ∧ 0 < [(1 : ℚ), 1].sum ∧
      (get_env_seqs [("a", ["x", "y"]), ("b", ["z"])]).Nodup) ∧
    (rand_split [("a", ["x", "y"]), ("b", ["z"])] [(1 : ℚ), 1] 42).length = 2 := by
  have hnn : ∀ r ∈ [(1 : ℚ), 1], 0 ≤ r := by
    intro r hr
    rcases List.mem_cons.mp hr with rfl | hr2
    · norm_num
    · rcases List.mem_singleton.mp hr2 with rfl
      norm_num
  refine ⟨⟨hnn, by norm_num, by decide⟩, ?_⟩
  exact (claim3_rand_split_partition [("a", ["x", "y"]), ("b", ["z"])]
    [(1 : ℚ), 1] 42 hnn (by norm_num) (by decide)).1

/-- C4: `rand_split` is deterministic: two calls on identical catalog state
with the same ratios and seed return identical subset lists — the same pairs
in each subset, with identical environment insertion order and identical
within-environment sequence order. -/
theorem claim4_rand_split_deterministic (c₁ c₂ : Catalog) (ratios : List ℚ)
    (seed : Nat) (h : c₁ = c₂) :
    rand_split c₁ ratios seed = rand_split c₂ ratios seed ∧
    (rand_split c₁ ratios seed).map get_env_seqs =
      (rand_split c₂ ratios seed).map get_env_seqs := by
  subst h
  exact ⟨rfl, rfl⟩

theorem claim4_rand_split_deterministic_witness :
    rand_split [("a", ["x"])] [(7 : ℚ)/10, 3/10] 7 =
      rand_split [("a", ["x"])] [(7 : ℚ)/10, 3/10] 7 :=
  (claim4_rand_split_deterministic [("a", ["x"])] [("a", ["x"])]
    [(7 : ℚ)/10, 3/10] 7 rfl).1

/-! ## Lemmas about shuffling and regrouping -/

theorem idOracles_lawful : idOracles.Lawful :=
  ⟨fun l => List.Perm.refl l, fun l => List.Perm.refl l,
   fun l => List.Perm.refl l, fun l => List.Perm.refl l⟩

theorem seqBatches_shape (p : EnvSeq) (sz bs : Nat) (overlap : Bool) :
    ∀ b ∈ seqBatches p sz bs overlap, ∀ t ∈ b, ∃ i, t = (p.1, p.2, i) := by
  intro b hb t ht
  unfold seqBatches at hb
  rcases List.mem_map.mp hb with ⟨st, _, rfl⟩
  rcases List.mem_map.mp ht with ⟨i, _, rfl⟩
  exact ⟨i, rfl⟩

theorem sequentialBatches_shape (c : Catalog) (size : EnvId → SeqId → Nat)
    (bs : Nat) (mode : Shuffle) (overlap : Bool) (o : Oracles) (hlaw : o.Lawful) :
    ∀ b ∈ sequentialBatches c size bs mode overlap o,
      ∃ p : EnvSeq, ∀ t ∈ b, ∃ i, t = (p.1, p.2, i) := by
  intro b hb
  unfold sequentialBatches at hb
  rcases List.mem_flatMap.mp hb with ⟨entry, _, hbe⟩
  refine ⟨entry.1, ?_⟩
  have hb' : b ∈ seqBatches entry.1 entry.2 bs overlap := by
    by_cases hm : mode = Shuffle.batch
    · rw [if_pos hm] at hbe
      exact ((hlaw.2.1 _).mem_iff).mp hbe
    · rw [if_neg hm] at hbe
      exact hbe
  exact seqBatches_shape entry.1 entry.2 bs overlap b hb'

theorem splitRuns_sound (key : α → String) (l : List α) :
    ∀ g ∈ splitRuns key l, (∀ a ∈ g, a ∈ l) ∧ ∃ k, ∀ a ∈ g, key a = k := by
  induction l with
  | nil => intro g hg; cases hg
  | cons x xs ih =>
    intro g hg
    have hsingle : (∀ a ∈ [x], a ∈ x :: xs) ∧ ∃ k, ∀ a ∈ [x], key a = k := by
      refine ⟨?_, key x, ?_⟩
      · intro a ha
        rcases List.mem_singleton.mp ha with rfl
        exact List.mem_cons_self _ _
      · intro a ha
        rcases List.mem_singleton.mp ha with rfl
        rfl
    have hg' : g ∈ splitRunsCons key x (splitRuns key xs) := hg
    cases hsp : splitRuns key xs with
    | nil =>
      rw [hsp] at hg'
      rcases List.mem_singleton.mp hg' with rfl
      exact hsingle
    | cons g0 gs =>
      rw [hsp] at hg'
      have hweak : ∀ g₁, g₁ ∈ splitRuns key xs →
          (∀ a ∈ g₁, a ∈ x :: xs) ∧ ∃ k, ∀ a ∈ g₁, key a = k := by
        intro g₁ hg₁
        rcases ih g₁ hg₁ with ⟨hsub, hk⟩
        exact ⟨fun a ha => List.mem_cons_of_mem _ (hsub a ha), hk⟩
      cases g0 with
      | nil =>
        rcases List.mem_cons.mp hg' with rfl | hgs
        · exact hsingle
        · exact hweak g (by rw [hsp]; exact List.mem_cons_of_mem _ hgs)
      | cons y g' =>
        by_cases hk : key x = key y
        · rw [show splitRunsCons key x ((y :: g') :: gs) =
            (x :: y :: g') :: gs from by
              rw [show splitRunsCons key x ((y :: g') :: gs) =
                if key x = key y then (x :: y :: g') :: gs
                else [x] :: (y :: g') :: gs from rfl, if_pos hk]] at hg'
          rcases List.mem_cons.mp hg' with rfl | hgs
          · rcases ih (y :: g') (by rw [hsp]; exact List.mem_cons_self _ _) with
              ⟨hsub, k, hconst⟩
            refine ⟨?_, k, ?_⟩
            · intro a ha
              rcases List.mem_cons.mp ha with rfl | ha'
              · exact List.mem_cons_self _ _
              · exact List.mem_cons_of_mem _ (hsub a ha')
            · intro a ha
              rcases List.mem_cons.mp ha with rfl | ha'
              · rw [hk]
                exact hconst y (List.mem_cons_self _ _)
              · exact hconst a ha'
          · exact hweak g (by rw [hsp]; exact List.mem_cons_of_mem _ hgs)
        · rw [show splitRunsCons key x ((y :: g') :: gs) =
            [x] :: (y :: g') :: gs from by
              rw [show splitRunsCons key x ((y :: g') :: gs) =
                if key x = key y then (x :: y :: g') :: gs
                else [x] :: (y :: g') :: gs from rfl, if_neg hk]] at hg'
          rcases List.mem_cons.mp hg' with rfl | hgs
          · exact hsingle
          · exact hweak g (by rw [hsp]; exact hgs)

theorem chunkPad_mem_some (n : Nat) (l : List α) :
    ∀ b ∈ chunkPad n l, ∀ x ∈ b, ∀ t, x = some t → t ∈ l := by
  intro b hb x hx t hxt
  unfold chunkPad at hb
  rcases List.mem_map.mp hb with ⟨k, _, rfl⟩
  unfold padTo at hx
  rcases List.mem_append.mp hx with h1 | h1
  · rcases List.mem_map.mp h1 with ⟨t', ht', rfl⟩
    rcases Option.some.inj hxt with rfl
    exact List.drop_subset _ _ (List.take_subset _ _ ht')
  · rw [List.eq_of_mem_replicate h1] at hxt
    cases hxt

theorem envRegroup_shape (bs : Nat) (o : Oracles) (hlaw : o.Lawful)
    (batches : List (List Triple)) :
    ∀ b ∈ envRegroup bs o batches,
      ∃ k : EnvId, ∀ x ∈ b, ∀ t : Triple, x = some t → t.1 = k := by
  intro b hb
  unfold envRegroup at hb
  rcases List.mem_flatMap.mp hb with ⟨grp, hgrp, hbg⟩
  rcases splitRuns_sound (fun t => t.1) batches.flatten grp hgrp with ⟨-, k, hconst⟩
  refine ⟨k, fun x hx t hxt => ?_⟩
  have ht : t ∈ o.envShuffle grp :=
    chunkPad_mem_some bs (o.envShuffle grp) b hbg x hx t hxt
  exact hconst t ((hlaw.2.2.1 grp).mem_iff.mp ht)

/-! ## Claim C8 -/

/-- C8: under shuffle modes none/`'seq'`/`'batch'` every emitted batch's
triples all share one `(environment, sequence)` pair; under `'env'`/`'all'`
every batch's present (non-`None`) triples all share one environment id —
for every catalog, size oracle, batch size, overlap flag, and lawful
shuffle oracles. -/
theorem claim8_batch_locality (c : Catalog) (size : EnvId → SeqId → Nat)
    (bs : Nat) (overlap : Bool) (mode : Shuffle) (o : Oracles) (hlaw : o.Lawful) :
    ((mode = Shuffle.none ∨ mode = Shuffle.seq ∨ mode = Shuffle.batch) →
      ∀ b ∈ samplerBatches c size bs mode overlap o,
        ∃ p : EnvSeq, ∀ x ∈ b, ∃ i, x = some (p.1, p.2, i)) ∧
    ((mode = Shuffle.env ∨ mode = Shuffle.all) →
      ∀ b ∈ samplerBatches c size bs mode overlap o,
        ∃ k : EnvId, ∀ x ∈ b, ∀ t : Triple, x = some t → t.1 = k) := by
  constructor
  · intro hm b hb
    have hform : b ∈ (sequentialBatches c size bs mode overlap o).map
        (fun b => b.map some) := by
      rcases hm with rfl | rfl | rfl <;> exact hb
    rcases List.mem_map.mp hform with ⟨b', hb', rfl⟩
    rcases sequentialBatches_shape c size bs mode overlap o hlaw b' hb' with ⟨p, hp⟩
    refine ⟨p, fun x hx => ?_⟩
    rcases List.mem_map.mp hx with ⟨t, ht, rfl⟩
    rcases hp t ht with ⟨i, rfl⟩
    exact ⟨i, rfl⟩
  · intro hm b hb
    rcases hm with rfl | rfl
    · exact envRegroup_shape bs o hlaw _ b hb
    · have hb' : b ∈ envRegroup bs o (sequentialBatches c size bs Shuffle.all overlap o) :=
        ((hlaw.2.2.2 _).mem_iff).mp hb
      exact envRegroup_shape bs o hlaw _ b hb'

theorem claim8_batch_locality_witness :
    idOracles.Lawful ∧
    (∀ b ∈ samplerBatches scenarioCatalog scenarioSize 2 Shuffle.env false idOracles,
      ∃ k : EnvId, ∀ x ∈ b, ∀ t : Triple, x = some t → t.1 = k) :=
  ⟨idOracles_lawful,
   (claim8_batch_locality scenarioCatalog scenarioSize 2 false Shuffle.env idOracles
     idOracles_lawful).2 (Or.inl rfl)⟩

/-! ## Claim C10 -/

theorem PyHeap.get_set_ne (h : PyHeap) (a b : Nat) (d : Catalog) (hab : b ≠ a) :
    (h.set a d).get b = h.get b := by
  show (h.dicts.set a d).getD b [] = h.dicts.getD b []
  rw [List.getD_eq_getElem?_getD, List.getD_eq_getElem?_getD,
    List.getElem?_set_ne fun he => hab he.symm]

theorem setFold_length (addr : Nat) (ps : List EnvSeq) (hh : PyHeap) :
    (ps.foldl (fun hh p => hh.set addr (addPair (hh.get addr) p.1 p.2)) hh).dicts.length
      = hh.dicts.length := by
  induction ps generalizing hh with
  | nil => rfl
  | cons p t ih =>
    rw [List.foldl_cons, ih]
    show (hh.dicts.set addr _).length = _
    rw [List.length_set]

theorem setFold_get_ne (addr : Nat) (ps : List EnvSeq) (hh : PyHeap) (a : Nat)
    (ha : a ≠ addr) :
    (ps.foldl (fun hh p => hh.set addr (addPair (hh.get addr) p.1 p.2)) hh).get a
      = hh.get a := by
  induction ps generalizing hh with
  | nil => rfl
  | cons p t ih =>
    rw [List.foldl_cons, ih]
    exact PyHeap.get_set_ne _ _ _ _ ha

theorem rshFold_invariant (env_seqs : List EnvSeq) (self : PyHolder) :
    ∀ (slices : List (List Nat)) (h : PyHeap) (acc : List PyHolder),
      (∀ u ∈ acc, u.seqsRef < h.dicts.length) →
      List.Pairwise (fun u v => u.seqsRef ≠ v.seqsRef) acc →
      (∀ a, a < h.dicts.length →
        (slices.foldl (rshStep env_seqs self) (h, acc)).1.get a = h.get a) ∧
      h.dicts.length ≤ (slices.foldl (rshStep env_seqs self) (h, acc)).1.dicts.length ∧
      (∀ u ∈ (slices.foldl (rshStep env_seqs self) (h, acc)).2,
        u.seqsRef < (slices.foldl (rshStep env_seqs self) (h, acc)).1.dicts.length ∧
        (u ∈ acc ∨ (h.dicts.length ≤ u.seqsRef ∧ u.otherRefs = self.otherRefs))) ∧
      List.Pairwise (fun u v => u.seqsRef ≠ v.seqsRef)
        (slices.foldl (rshStep env_seqs self) (h, acc)).2 := by
  intro slices
  induction slices with
  | nil =>
    intro h acc hacc hpw
    refine ⟨fun a _ => rfl, Nat.le_refl _, ?_, hpw⟩
    intro u hu
    exact ⟨hacc u hu, Or.inl hu⟩
  | cons pm rest ih =>
    intro h acc hacc hpw
    rw [List.foldl_cons]
    set addr := h.dicts.length with haddr
    set hp : PyHeap := ⟨h.dicts ++ [[]]⟩ with hhp
    set ps := (sortAsc pm).map fun i => env_seqs.getD i ("", "") with hps
    set hp2 := ps.foldl (fun hh p => hh.set addr (addPair (hh.get addr) p.1 p.2)) hp
      with hhp2
    have hstep : rshStep env_seqs self (h, acc) pm =
        (hp2, acc ++ [{ self with seqsRef := addr }]) := rfl
    rw [hstep]
    have hp2len : hp2.dicts.length = addr + 1 := by
      rw [hhp2, setFold_length, hhp]
      show (h.dicts ++ [[]]).length = addr + 1
      rw [List.length_append, haddr]
      rfl
    have hp2get : ∀ a, a < addr → hp2.get a = h.get a := by
      intro a ha
      rw [hhp2, setFold_get_ne _ _ _ _ (by omega)]
      show (h.dicts ++ [[]]).getD a [] = h.dicts.getD a []
      rw [List.getD_append _ _ _ _ (by omega)]
    have hacc' : ∀ u ∈ acc ++ [{ self with seqsRef := addr }],
        u.seqsRef < hp2.dicts.length := by
      intro u hu
      rcases List.mem_append.mp hu with h1 | h1
      · have := hacc u h1
        omega
      · rcases List.mem_singleton.mp h1 with rfl
        show addr < hp2.dicts.length
        omega
    have hpw' : List.Pairwise (fun u v => u.seqsRef ≠ v.seqsRef)
        (acc ++ [{ self with seqsRef := addr }]) := by
      rw [List.pairwise_append]
      refine ⟨hpw, List.pairwise_singleton _ _, ?_⟩
      intro u hu v hv
      rcases List.mem_singleton.mp hv with rfl
      have := hacc u hu
      show u.seqsRef ≠ addr
      omega
    obtain ⟨ih1, ih2, ih3, ih4⟩ := ih hp2 (acc ++ [{ self with seqsRef := addr }])
      hacc' hpw'
    refine ⟨?_, by omega, ?_, ih4⟩
    · intro a ha
      rw [ih1 a (by omega), hp2get a (by omega)]
    · intro u hu
      obtain ⟨hlt, hor⟩ := ih3 u hu
      refine ⟨hlt, ?_⟩
      rcases hor with hm | hge
      · rcases List.mem_append.mp hm with h1 | h1
        · exact Or.inl h1
        · rcases List.mem_singleton.mp h1 with rfl
          refine Or.inr ⟨?_, rfl⟩
          show h.dicts.length ≤ addr
          omega
      · exact Or.inr ⟨by omega, hge.2⟩

/-- C10: `rand_split` does not mutate its receiver — after the call the
parent's `_seqs` dict is unchanged — and every returned subset holds a
freshly allocated `_seqs` dict, distinct from the parent's and from every
sibling's, while all other attributes are shared with the parent by
reference. -/
theorem claim10_rand_split_frame (h₀ : PyHeap) (self : PyHolder)
    (ratios : List ℚ) (seed : Nat) (hvalid : self.seqsRef < h₀.dicts.length) :
    (rand_split_heap h₀ self ratios seed).1.get self.seqsRef =
      h₀.get self.seqsRef ∧
    (∀ u ∈ (rand_split_heap h₀ self ratios seed).2,
      u.seqsRef ≠ self.seqsRef ∧ u.otherRefs = self.otherRefs) ∧
    List.Pairwise (fun u v => u.seqsRef ≠ v.seqsRef)
      (rand_split_heap h₀ self ratios seed).2 := by
  obtain ⟨h1, h2, h3, h4⟩ := rshFold_invariant
    (get_env_seqs (h₀.get self.seqsRef)) self
    (npSplit (npPermutation seed (get_env_seqs (h₀.get self.seqsRef)).length)
      (((cumsum (ratios.map fun r => npRound
        (r / ratios.sum *
          ((get_env_seqs (h₀.get self.seqsRef)).length : ℚ)))).dropLast).map
        Int.toNat))
    h₀ [] (fun u hu => absurd hu (List.not_mem_nil u)) List.Pairwise.nil
  refine ⟨h1 _ hvalid, ?_, h4⟩
  intro u hu
  obtain ⟨hlt, hor⟩ := h3 u hu
  rcases hor with hm | ⟨hge, hot⟩
  · cases hm
  · exact ⟨by omega, hot⟩

theorem claim10_rand_split_frame_witness :
    (PyHolder.mk 0 [5]).seqsRef < (PyHeap.mk [[("a", ["x"])]]).dicts.length ∧
    (rand_split_heap ⟨[[("a", ["x"])]]⟩ ⟨0, [5]⟩ [(1 : ℚ), 1] 0).1.get 0 =
      PyHeap.get ⟨[[("a", ["x"])]]⟩ 0 :=
  ⟨by decide,
   (claim10_rand_split_frame ⟨[[("a", ["x"])]]⟩ ⟨0, [5]⟩ [(1 : ℚ), 1] 0
     (by decide)).1⟩

/-! ## Claims C6, C9 -/

/-- C6: after `include_exclude(include, exclude)` on a catalog satisfying the
data-model invariants (distinct environment keys, no empty sequence list),
every remaining pair's `SeqKey` matches the include pattern if one was given
and does not match the exclude pattern if one was given, and every remaining
environment maps to a non-empty sequence list. -/
theorem claim6_filter_correct (inc exc : Option (String → Bool)) (c : Catalog)
    (hnd : (envs c).Nodup) (hne : ∀ p ∈ c, p.2 ≠ []) :
    ∀ e ss, (e, ss) ∈ include_exclude inc exc c →
      ss ≠ [] ∧ ∀ s ∈ ss,
        (∀ p, inc = some p → p (get_seq_id e s) = true) ∧
        (∀ p, exc = some p → p (get_seq_id e s) = false) := by
  rw [include_exclude_eq_filterCatalog inc exc c hnd hne]
  intro e ss hmem
  rcases List.mem_filterMap.mp hmem with ⟨⟨e₀, ss₀⟩, _, hf⟩
  dsimp only at hf
  by_cases hE : (ss₀.filter fun s => !shouldRemove inc exc (get_seq_id e₀ s)) = []
  · rw [if_pos hE] at hf
    cases hf
  · rw [if_neg hE] at hf
    have hpair := Option.some.inj hf
    have he : e₀ = e := congrArg Prod.fst hpair
    have hss : (ss₀.filter fun s => !shouldRemove inc exc (get_seq_id e₀ s)) = ss :=
      congrArg Prod.snd hpair
    subst he
    subst hss
    refine ⟨hE, ?_⟩
    intro s hs
    have h2 : (!shouldRemove inc exc (get_seq_id e₀ s)) = true := (List.mem_filter.mp hs).2
    have h3 : shouldRemove inc exc (get_seq_id e₀ s) = false := by
      cases hsr : shouldRemove inc exc (get_seq_id e₀ s)
      · rfl
      · rw [hsr] at h2
        cases h2
    unfold shouldRemove at h3
    rcases Bool.or_eq_false_iff.mp h3 with ⟨h4, h5⟩
    constructor
    · intro p hp
      rw [hp] at h4
      have h4' : (!p (get_seq_id e₀ s)) = false := h4
      cases hpk : p (get_seq_id e₀ s)
      · rw [hpk] at h4'
        cases h4'
      · rfl
    · intro p hp
      rw [hp] at h5
      exact h5

theorem claim6_filter_correct_witness :
    (["a_x"].Nodup ∧ (∀ p ∈ [(("a" : EnvId), ["x", "y"])], p.2 ≠ []) ∧
      ("a", ["x"]) ∈ include_exclude (some fun k => k == "a_x") none [("a", ["x", "y"])]) ∧
    (["x"] ≠ ([] : List SeqId) ∧ ∀ s ∈ ["x"],
      (∀ p, (some fun k => k == "a_x") = some p → p (get_seq_id "a" s) = true) ∧
      (∀ p, (none : Option (String → Bool)) = some p → p (get_seq_id "a" s) = false)) := by
  have hnd : (envs [(("a" : EnvId), ["x", "y"])]).Nodup := by decide
  have hne : ∀ p ∈ [(("a" : EnvId), ["x", "y"])], p.2 ≠ [] := by decide
  have hmem : ("a", ["x"]) ∈
      include_exclude (some fun k => k == "a_x") none [("a", ["x", "y"])] := by
    show ("a", ["x"]) ∈ include_exclude (some fun k => k == "a_x") none [("a", ["x", "y"])]
    rw [show include_exclude (some fun k => k == "a_x") none [("a", ["x", "y"])] =
      [("a", ["x"])] from rfl]
    exact List.mem_singleton.mpr rfl
  exact ⟨⟨by decide, hne, hmem⟩,
    claim6_filter_correct (some fun k => k == "a_x") none [("a", ["x", "y"])]
      hnd hne "a" ["x"] hmem⟩

/-- C9: calling `include_exclude` with both patterns absent removes nothing:
the catalog afterwards is exactly the catalog before, every environment in
place and every sequence list untouched. -/
theorem claim9_no_patterns_identity (c : Catalog) :
    include_exclude none none c = c := by
  unfold include_exclude
  have h : ∀ (l : List EnvSeq) (acc : Catalog),
      l.foldl (fun acc p =>
        if shouldRemove none none (get_seq_id p.1 p.2) then catalogRemoveSeq acc p.1 p.2
        else acc) acc = acc := by
    intro l
    induction l with
    | nil => intro acc; rfl
    | cons p t ih =>
      intro acc
      rw [List.foldl_cons]
      show t.foldl _ (if shouldRemove none none (get_seq_id p.1 p.2) = true
        then catalogRemoveSeq acc p.1 p.2 else acc) = acc
      rw [if_neg (show ¬(shouldRemove none none (get_seq_id p.1 p.2) = true) from
        fun hh => Bool.false_ne_true hh)]
      exact ih acc
  exact h (get_env_seqs c) c

/-! ## Claim C7 -/

/-- C7: `__getitem__` fails with the distinct error kind for an unknown
environment, an unknown sequence under a known environment, or an
out-of-range index — each failure independent of the item-fetch hook — and on
valid input returns a non-empty tuple whose last element is exactly the
`(environment, sequence, index)` triple. -/
theorem claim7_getitem_contract (α : Type) (c : Catalog) (size : EnvId → SeqId → Nat)
    (fetch : EnvId → SeqId → Nat → FetchResult α) (e : EnvId) (s : SeqId) (idx : Int) :
    (e ∉ envs c →
      getitem c size fetch e s idx = .error .noSuchEnv ∧
      ∀ fetch' : EnvId → SeqId → Nat → FetchResult α,
        getitem c size fetch' e s idx = .error .noSuchEnv) ∧
    (e ∈ envs c → s ∉ seqsOf c e →
      getitem c size fetch e s idx = .error .noSuchSeq ∧
      ∀ fetch' : EnvId → SeqId → Nat → FetchResult α,
        getitem c size fetch' e s idx = .error .noSuchSeq) ∧
    (e ∈ envs c → s ∈ seqsOf c e → ¬(0 ≤ idx ∧ idx < (size e s : Int)) →
      getitem c size fetch e s idx = .error .indexOutOfBound ∧
      ∀ fetch' : EnvId → SeqId → Nat → FetchResult α,
        getitem c size fetch' e s idx = .error .indexOutOfBound) ∧
    (e ∈ envs c → s ∈ seqsOf c e → 0 ≤ idx → idx < (size e s : Int) →
      ∃ l, getitem c size fetch e s idx = .ok l ∧
        l ≠ [] ∧ l.getLast? = some (.meta (e, s, idx.toNat))) := by
  refine ⟨?_, ?_, ?_, ?_⟩
  · intro he
    constructor
    · unfold getitem
      rw [if_neg he]
    · intro fetch'
      unfold getitem
      rw [if_neg he]
  · intro he hs
    constructor
    · unfold getitem
      rw [if_pos he, if_neg hs]
    · intro fetch'
      unfold getitem
      rw [if_pos he, if_neg hs]
  · intro he hs hidx
    constructor
    · unfold getitem
      rw [if_pos he, if_pos hs, if_neg hidx]
    · intro fetch'
      unfold getitem
      rw [if_pos he, if_pos hs, if_neg hidx]
  · intro he hs h0 hlt
    refine ⟨(match fetch e s idx.toNat with
      | .single v => [v]
      | .tuple vs => vs).map .val ++ [.meta (e, s, idx.toNat)], ?_, ?_, ?_⟩
    · unfold getitem
      rw [if_pos he, if_pos hs, if_pos ⟨h0, hlt⟩]
    · intro hnil
      have h1 := congrArg List.length hnil
      rw [List.length_append] at h1
      simp at h1
    · exact List.getLast?_concat _

theorem claim7_getitem_contract_witness :
    ("b" ∉ envs [("a", ["x"])] ∧
      getitem [("a", ["x"])] (fun _ _ => 2)
        (fun _ _ _ => FetchResult.single (0 : Nat)) "b" "x" 0 =
        .error .noSuchEnv) ∧
    (∃ l, getitem [("a", ["x"])] (fun _ _ => 2)
        (fun _ _ _ => FetchResult.single (0 : Nat)) "a" "x" 1 = .ok l ∧
      l ≠ [] ∧ l.getLast? = some (.meta ("a", "x", 1))) := by
  constructor
  · refine ⟨by decide, ?_⟩
    exact ((claim7_getitem_contract Nat [("a", ["x"])] (fun _ _ => 2)
      (fun _ _ _ => FetchResult.single 0) "b" "x" 0).1 (by decide)).1
  · exact (claim7_getitem_contract Nat [("a", ["x"])] (fun _ _ => 2)
      (fun _ _ _ => FetchResult.single 0) "a" "x" 1).2.2.2
      (by decide) (by decide) (by decide) (by decide)

theorem claim5_overlap_windows_witness :
    [some ("a", "b", 0), some ("a", "b", 1)] ∈
      samplerBatches [("a", ["b"])] (fun _ _ => 5) 2 Shuffle.none true idOracles ∧
    ([some ("a", "b", 0), some ("a", "b", 1)] : List (Option Triple)).length = 2 :=
  have h := claim5_overlap_windows "a" "b" 5 2
  have hm : [some ("a", "b", 0), some ("a", "b", 1)] ∈
      samplerBatches [("a", ["b"])] (fun _ _ => 5) 2 Shuffle.none true idOracles := by
    rw [h.1]
    decide
  ⟨hm, h.2.2 _ hm⟩

end AirLoop
